import Mathlib

/-!
# Verification of the streaming response segmenter

Shallow embedding of `_stream_sentences_from_chunks`
(`src/completion_manager.py`, lines 87-158) over `List Char`, together
with theorems settling the frozen claims about it.

The segmenter consumes a stream of text chunks and classifies the text,
incrementally, into `sentence`, `clipboard_text` and `full_response`
events.  Each Python construct is translated directly:

* `str.strip()`             becomes `trim` (drop whitespace at both ends);
* `sep in s`                becomes `containsSub sep s`;
* `s.partition(sep)`        becomes `partitionAt sep s` (split at the first
                            occurrence, separator dropped);
* the sentence-boundary regex `(?<=[.!?])\s+|(?<=\n)` becomes `boundEnd`,
  returning the end position of the leftmost match (after the greedy
  whitespace run for the first alternative, the zero-width position after
  a newline for the second);
* the `while` loop extracting sentences becomes `extract`.

Whitespace is the set matched by Python's `str.strip()` / regex `\s` on
the ASCII range: space, tab, newline, carriage return, vertical tab,
form feed.
-/

namespace Segmenter

/-- Whitespace characters (Python `str.strip()` default / regex `\s`,
ASCII range). -/
def isWs (c : Char) : Bool :=
  c = ' ' || c = '\t' || c = '\n' || c = '\r' || c = '\x0b' || c = '\x0c'

/-- Sentence-ending punctuation of the regex class `[.!?]`. -/
def isEnding (c : Char) : Bool :=
  c = '.' || c = '!' || c = '?'

/-- Python `s.lstrip()` on a character list. -/
def trimLeft (s : List Char) : List Char :=
  s.dropWhile isWs

/-- Python `s.rstrip()` on a character list. -/
def trimRight (s : List Char) : List Char :=
  (s.reverse.dropWhile isWs).reverse

/-- Python `s.strip()` on a character list. -/
def trim (s : List Char) : List Char :=
  trimRight (trimLeft s)

/-- Index of the first occurrence of `sep` as a contiguous substring of
`s` (Python `s.find(sep)` when it succeeds). -/
def findSub (sep : List Char) : List Char → Option Nat
  | [] => if sep = [] then some 0 else none
  | c :: rest =>
    if sep.isPrefixOf (c :: rest) then some 0
    else (findSub sep rest).map (· + 1)

/-- Python `sep in s`. -/
def containsSub (sep s : List Char) : Bool :=
  (findSub sep s).isSome

/-- Python `s.partition(sep)`, keeping only the text before and after the
first occurrence of the separator.  When the separator does not occur the
result is `(s, [])`, exactly as Python returns `(s, '', '')`. -/
def partitionAt (sep s : List Char) : List Char × List Char :=
  match findSub sep s with
  | some i => (s.take i, s.drop (i + sep.length))
  | none => (s, [])

/-- Length of the maximal whitespace prefix (the greedy `\s+` match). -/
def wsRun : List Char → Nat
  | [] => 0
  | c :: t => if isWs c then wsRun t + 1 else 0

/-- Helper for `boundEnd`: scanning with `p` the character immediately
before the current position and `t` the rest of the text, return the end
offset (relative to the current position) of the leftmost match of
`(?<=[.!?])\s+|(?<=\n)`, scanning positions left to right exactly as
`re.search` does. -/
def boundEndAux : Char → List Char → Option Nat
  | p, [] => if p = '\n' then some 0 else none
  | p, c :: t =>
    if isEnding p && isWs c then some (wsRun (c :: t))
    else if p = '\n' then some 0
    else (boundEndAux c t).map (· + 1)

/-- End position of the leftmost match of the sentence-boundary regex
`(?<=[.!?])\s+|(?<=\n)` in `s` (`sentence_endings.search(buffer)` and
`match.end()` in the source); `none` when there is no match.  Position 0
can never match because both alternatives need a preceding character. -/
def boundEnd : List Char → Option Nat
  | [] => none
  | c :: t => (boundEndAux c t).map (· + 1)

/-- The sentence-extraction `while` loop, with explicit fuel: repeatedly
search the buffer for a boundary, cut at the match end, and return the
list of raw cut prefixes together with the final remainder. -/
def extractFuel : Nat → List Char → List (List Char) × List Char
  | 0, s => ([], s)
  | fuel + 1, s =>
    match boundEnd s with
    | none => ([], s)
    | some e =>
      let r := extractFuel fuel (s.drop e)
      (s.take e :: r.1, r.2)

/-- Every boundary ends strictly after position 0, so `s.length` cuts
always suffice as fuel. -/
def extract (s : List Char) : List (List Char) × List Char :=
  extractFuel s.length s

/-- Output events of the segmenter: `("sentence", text)`,
`("clipboard_text", text)` and `("full_response", text)` tuples in the
source. -/
inductive Event where
  | sentence (text : List Char)
  | clipboard_text (text : List Char)
  | full_response (text : List Char)
  deriving DecidableEq, Repr

/-- The tag of an event. -/
def Event.tag : Event → String
  | .sentence _ => "sentence"
  | .clipboard_text _ => "clipboard_text"
  | .full_response _ => "full_response"

/-- The text carried by an event. -/
def Event.payload : Event → List Char
  | .sentence t => t
  | .clipboard_text t => t
  | .full_response t => t

/-- The triple-backtick fence delimiter. -/
def backticks : List Char := ['`', '`', '`']

/-- The fixed confirmation phrase yielded after a closed code fence. -/
def confirmation : List Char := "Code saved to the clipboard.".toList

/-- `yield "sentence", x.strip()` guarded by `if x.strip():`. -/
def emitCut (x : List Char) : Option Event :=
  if trim x = [] then none else some (.sentence (trim x))

/-- Events produced by the sentence-extraction loop from a list of raw
cut prefixes. -/
def emits (cuts : List (List Char)) : List Event :=
  cuts.filterMap emitCut

/-- Internal state of the generator between chunks. -/
structure SegState where
  buffer : List Char
  fullResponse : List Char
  inMarker : Bool
  inBackticks : Bool
  deriving DecidableEq, Repr

/-- The initial state. -/
def initState : SegState :=
  ⟨[], [], false, false⟩

/-- Working state while the body of the `for` loop processes one chunk:
the buffer, the two mode flags, and the events yielded so far during this
pass. -/
structure Mid where
  buffer : List Char
  inMarker : Bool
  inBackticks : Bool
  events : List Event
  deriving DecidableEq, Repr

/-- Lines 111-117 of the source: if the start marker occurs in the buffer
and we are not in a marker span, emit the non-blank prefix as a sentence,
keep the text after the marker, and set `in_marker`. -/
def markerOpenStep (ms : List Char) (x : Mid) : Mid :=
  if containsSub ms x.buffer && !x.inMarker then
    { buffer := (partitionAt ms x.buffer).2, inMarker := true,
      inBackticks := x.inBackticks,
      events := x.events ++ (emitCut (partitionAt ms x.buffer).1).toList }
  else x

/-- Lines 118-122 of the source: if the end marker occurs in the buffer
and we are in a marker span, emit the marked section (trimmed,
unconditionally) as clipboard text, keep the text after the marker, and
clear `in_marker`. -/
def markerCloseStep (me : List Char) (x : Mid) : Mid :=
  if containsSub me x.buffer && x.inMarker then
    { buffer := (partitionAt me x.buffer).2, inMarker := false,
      inBackticks := x.inBackticks,
      events := x.events ++ [.clipboard_text (trim (partitionAt me x.buffer).1)] }
  else x

/-- Lines 110-122: the marker block, run only when `in_backticks` is
false; the open check runs first and the close check sees its result. -/
def markerStep (ms me : List Char) (x : Mid) : Mid :=
  if !x.inBackticks then markerCloseStep me (markerOpenStep ms x) else x

/-- Lines 124-136: the backtick block, run only when `in_marker` is
false: open a fence (emitting the non-blank prefix as a sentence) or
close one (emitting the refenced section as clipboard text followed by
the fixed confirmation sentence). -/
def backtickStep (x : Mid) : Mid :=
  if !x.inMarker then
    if !x.inBackticks && containsSub backticks x.buffer then
      { buffer := (partitionAt backticks x.buffer).2, inMarker := x.inMarker,
        inBackticks := true,
        events := x.events ++ (emitCut (partitionAt backticks x.buffer).1).toList }
    else if x.inBackticks && containsSub backticks x.buffer then
      { buffer := (partitionAt backticks x.buffer).2, inMarker := x.inMarker,
        inBackticks := false,
        events := x.events ++
          [.clipboard_text (backticks ++ trim (partitionAt backticks x.buffer).1 ++ backticks),
           .sentence confirmation] }
    else x
  else x

/-- Lines 138-147: the sentence-extraction loop, run only when neither
flag is set. -/
def sentenceStep (x : Mid) : Mid :=
  if !x.inMarker && !x.inBackticks then
    { buffer := (extract x.buffer).2, inMarker := x.inMarker,
      inBackticks := x.inBackticks,
      events := x.events ++ emits (extract x.buffer).1 }
  else x

/-- Processing of one chunk (the body of the `for` loop, lines 106-147):
append the chunk to `buffer` and `full_response`, run the marker block,
the backtick block and the sentence-extraction loop in order, each under
its guard. -/
def processChunk (ms me : List Char) (st : SegState) (chunk : List Char) :
    SegState × List Event :=
  let y := sentenceStep (backtickStep (markerStep ms me
    ⟨st.buffer ++ chunk, st.inMarker, st.inBackticks, []⟩))
  (⟨y.buffer, st.fullResponse ++ chunk, y.inMarker, y.inBackticks⟩, y.events)

/-- Fold `processChunk` over a list of chunks, accumulating events in
emission order. -/
def runChunks (ms me : List Char) (st : SegState) :
    List (List Char) → SegState × List Event
  | [] => (st, [])
  | c :: cs =>
    let p := processChunk ms me st c
    let r := runChunks ms me p.1 cs
    (r.1, p.2 ++ r.2)

/-- The end-of-stream flush (lines 149-155): when the buffer is non-blank
emit it as reopened-fence clipboard text, a sentence, or unfenced
clipboard text according to the flags. -/
def flushEvents (st : SegState) : List Event :=
  if trim st.buffer ≠ [] then
    if st.inBackticks then [.clipboard_text (backticks ++ trim st.buffer)]
    else if !st.inMarker then [.sentence (trim st.buffer)]
    else [.clipboard_text (trim st.buffer)]
  else []

/-- The final `full_response` emission (lines 157-158). -/
def fullEvent (st : SegState) : List Event :=
  if trim st.fullResponse ≠ [] then [.full_response (trim st.fullResponse)]
  else []

/-- The whole generator `_stream_sentences_from_chunks`: the events
yielded, in order, for a given chunk stream. -/
def runSegmenter (ms me : List Char) (chunks : List (List Char)) : List Event :=
  let r := runChunks ms me initState chunks
  r.2 ++ flushEvents r.1 ++ fullEvent r.1

/-- Default value of `clip_start_marker`. -/
def defStart : List Char := "-CLIPSTART-".toList

/-- Default value of `clip_end_marker`. -/
def defEnd : List Char := "-CLIPEND-".toList

/-- The pathological chunking where every chunk is a single character. -/
def perChar (s : List Char) : List (List Char) :=
  s.map (fun c => [c])

end Segmenter

namespace Segmenter

/-! ## Concrete runs and easy claims -/

/-- C10: an empty chunk stream produces no events at all: the buffer and
accumulated response are empty, so neither the flush nor the
`full_response` guard fires. -/
theorem c10_empty_stream (ms me : List Char) : runSegmenter ms me [] = [] := rfl

/-- C2 as stated is false: feeding the fence round-trip input as one
single chunk does not produce the claimed event list, because only one
fence transition is processed per chunk, so the single-chunk run leaves
the fence open and flushes `"```print(1)``` done."` as clipboard text. -/
theorem c2_counterexample :
    runSegmenter defStart defEnd ["Use this: ```print(1)``` done.".toList] ≠
      [.sentence "Use this:".toList,
       .clipboard_text "```print(1)```".toList,
       .sentence confirmation,
       .sentence "done.".toList,
       .full_response "Use this: ```print(1)``` done.".toList] := by
  decide

/-- C2 amended: fed one character at a time, the fence round-trip input
yields exactly the claimed events: sentence `"Use this:"`, clipboard text
`"```print(1)```"`, the confirmation sentence, sentence `"done."`, then
the trimmed full response. -/
theorem c2_amended :
    runSegmenter defStart defEnd (perChar "Use this: ```print(1)``` done.".toList) =
      [.sentence "Use this:".toList,
       .clipboard_text "```print(1)```".toList,
       .sentence confirmation,
       .sentence "done.".toList,
       .full_response "Use this: ```print(1)``` done.".toList] := by
  decide

/-- C1 as stated is false: on input `"```a```"` the per-character run
closes the fence and emits the confirmation sentence, while the
single-chunk run processes only the fence-opening transition; the runs
differ in their event tags, hence in more than trimming-introduced
whitespace. -/
theorem c1_counterexample :
    (runSegmenter defStart defEnd (perChar "```a```".toList)).map Event.tag ≠
      (runSegmenter defStart defEnd ["```a```".toList]).map Event.tag := by
  decide

/-- C6 as stated is false: on the marker round-trip input, the marker
strings themselves are dropped by `partition` and appear in no event
payload, so the payload characters of the sentence and clipboard events
do not reconstruct the input even ignoring whitespace. -/
theorem c6_counterexample :
    ((runSegmenter defStart defEnd ["Hello -CLIPSTART-secret-CLIPEND- world.".toList]).filterMap
        (fun e => match e with
          | .sentence t => some t
          | .clipboard_text t => some t
          | .full_response _ => none)).flatten.filter (fun c => !isWs c) ≠
      "Hello -CLIPSTART-secret-CLIPEND- world.".toList.filter (fun c => !isWs c) := by
  decide

end Segmenter

namespace Segmenter

/-! ## C3: the marker round-trip under every chunking

The input `"Hello -CLIPSTART-secret-CLIPEND- world."` (39 characters) is
processed identically under every fragmentation.  We prove this by
establishing, for each pair of positions `i ≤ j`, that feeding the slice
`[i, j)` as one chunk to the closed-form state at position `i` yields the
closed-form state at position `j` (a finite, decidable table of facts),
and then folding an arbitrary chunking through the table. -/

/-- The marker round-trip input. -/
def c3Input : List Char := "Hello -CLIPSTART-secret-CLIPEND- world.".toList

/-- Start of the unclassified text still buffered after `i` characters of
`c3Input` have been consumed: the buffer is reset after the start marker
(position 17) and after the end marker (position 32). -/
def c3Anchor (i : Nat) : Nat :=
  if i < 17 then 0 else if i < 32 then 17 else 32

/-- `in_marker` after `i` characters of `c3Input`: inside the marker span
between the two sentinels. -/
def c3InMarker (i : Nat) : Bool :=
  decide (17 ≤ i) && decide (i < 32)

/-- Closed form of the segmenter state after consuming `i` characters of
`c3Input`, independently of the fragmentation. -/
def c3State (i : Nat) : SegState :=
  ⟨(c3Input.take i).drop (c3Anchor i), c3Input.take i, c3InMarker i, false⟩

/-- Closed form of the events emitted after consuming `i` characters of
`c3Input`. -/
def c3Events (i : Nat) : List Event :=
  if i < 17 then []
  else if i < 32 then [.sentence "Hello".toList]
  else [.sentence "Hello".toList, .clipboard_text "secret".toList]

/-- One table entry: processing the slice `[i, j)` of `c3Input` as a
single chunk from the closed-form state at `i` reaches the closed-form
state at `j` and extends the closed-form event trace accordingly. -/
def c3Check (i j : Nat) : Bool :=
  let r := processChunk defStart defEnd (c3State i) ((c3Input.take j).drop i)
  decide (r.1 = c3State j) && decide (c3Events i ++ r.2 = c3Events j)

set_option maxRecDepth 10000 in
/-- The whole table of slice facts for `c3Input` holds. -/
theorem c3Check_true : ∀ i < 40, ∀ j < 40, i ≤ j → c3Check i j = true := by decide

/-- Folding any chunking of the tail `c3Input.drop i` through the slice
table: the run ends in the closed-form state at position 39 and the event
trace extends the closed-form trace at `i` to the one at 39. -/
theorem c3_runChunks : ∀ (cs : List (List Char)) (i : Nat), i ≤ 39 →
    cs.flatten = c3Input.drop i →
    ∃ B, runChunks defStart defEnd (c3State i) cs = (c3State 39, B) ∧
      c3Events i ++ B = c3Events 39 := by
  intro cs
  induction cs with
  | nil =>
    intro i hle hflat
    have hlen : c3Input.length ≤ i := by
      by_contra hlt
      push_neg at hlt
      have : (c3Input.drop i).length = 0 := by
        rw [← hflat]; rfl
      rw [List.length_drop] at this
      omega
    have hi : i = 39 := by
      have h39 : c3Input.length = 39 := by decide
      omega
    subst hi
    exact ⟨[], rfl, by simp⟩
  | cons c cs ih =>
    intro i hle hflat
    have hlen39 : c3Input.length = 39 := by decide
    have hflat2 : c ++ cs.flatten = c3Input.drop i := by simpa using hflat
    have hlen : c.length + cs.flatten.length = 39 - i := by
      have := congrArg List.length hflat2
      simp only [List.length_append, List.length_drop, hlen39] at this
      omega
    have hj : i + c.length ≤ 39 := by omega
    have hc : c = (c3Input.take (i + c.length)).drop i := by
      rw [List.drop_take]
      have h2 : i + c.length - i = c.length := by omega
      rw [h2, ← hflat2]
      exact (List.take_left c cs.flatten).symm
    have hflat' : cs.flatten = c3Input.drop (i + c.length) := by
      have h3 := congrArg (List.drop c.length) hflat2
      rw [List.drop_left, List.drop_drop] at h3
      exact h3
    have hchk := c3Check_true i (by omega) (i + c.length) (by omega) (by omega)
    rw [c3Check] at hchk
    simp only [Bool.and_eq_true, decide_eq_true_eq] at hchk
    obtain ⟨B, hrun, hev⟩ := ih (i + c.length) hj hflat'
    refine ⟨(processChunk defStart defEnd (c3State i) c).2 ++ B, ?_, ?_⟩
    · simp only [runChunks]
      rw [hc, hchk.1, hrun]
    · rw [← List.append_assoc]
      rw [hc, hchk.2, hev]

/-- C3: for every chunking of `"Hello -CLIPSTART-secret-CLIPEND- world."`
into fragments, with the default markers, the segmenter yields exactly a
sentence `"Hello"`, clipboard text `"secret"`, a sentence `"world."` and
the untrimmed-identical full response, in that order. -/
theorem c3_marker_roundtrip (cs : List (List Char))
    (h : cs.flatten = "Hello -CLIPSTART-secret-CLIPEND- world.".toList) :
    runSegmenter defStart defEnd cs =
      [.sentence "Hello".toList,
       .clipboard_text "secret".toList,
       .sentence "world.".toList,
       .full_response "Hello -CLIPSTART-secret-CLIPEND- world.".toList] := by
  have h0 : cs.flatten = c3Input.drop 0 := by simpa [c3Input] using h
  obtain ⟨B, hrun, hev⟩ := c3_runChunks cs 0 (by omega) h0
  have hinit : c3State 0 = initState := by decide
  have hB : B = c3Events 39 := by simpa [c3Events] using hev
  rw [runSegmenter, ← hinit, hrun]
  subst hB
  decide

/-- Witness for C3 at a concrete two-fragment chunking that splits inside
the marker span. -/
theorem c3_witness :
    runSegmenter defStart defEnd
        ["Hello -CLIPSTART-sec".toList, "ret-CLIPEND- world.".toList] =
      [.sentence "Hello".toList,
       .clipboard_text "secret".toList,
       .sentence "world.".toList,
       .full_response "Hello -CLIPSTART-secret-CLIPEND- world.".toList] :=
  c3_marker_roundtrip _ (by decide)

end Segmenter

namespace Segmenter

/-! ## Whitespace and trim toolbox -/

/-- `dropWhile` is idempotent (on the whitespace predicate). -/
theorem dropWhile_isWs_idem (s : List Char) :
    (s.dropWhile isWs).dropWhile isWs = s.dropWhile isWs := by
  cases h : s.dropWhile isWs with
  | nil => rfl
  | cons a t =>
    have ha := List.head?_dropWhile_not isWs s
    rw [h] at ha
    simp only [List.head?_cons] at ha
    simp [List.dropWhile_cons, ha]

/-- Prepending whitespace does not change `lstrip`. -/
theorem trimLeft_ws_prepend {w : List Char} (s : List Char)
    (hw : ∀ c ∈ w, isWs c = true) : trimLeft (w ++ s) = trimLeft s :=
  List.dropWhile_append_of_pos hw

/-- `lstrip` is idempotent. -/
theorem trimLeft_idem (s : List Char) : trimLeft (trimLeft s) = trimLeft s :=
  dropWhile_isWs_idem s

/-- `rstrip` is idempotent. -/
theorem trimRight_idem (s : List Char) : trimRight (trimRight s) = trimRight s := by
  unfold trimRight
  rw [List.reverse_reverse, dropWhile_isWs_idem]

/-- Appending whitespace does not change `rstrip`. -/
theorem trimRight_append_ws {u : List Char} (s : List Char)
    (hu : ∀ c ∈ u, isWs c = true) : trimRight (s ++ u) = trimRight s := by
  unfold trimRight
  rw [List.reverse_append, List.dropWhile_append_of_pos (by simpa using hu)]

/-- Prepending whitespace does not change `strip`. -/
theorem trim_ws_prepend {w : List Char} (s : List Char)
    (hw : ∀ c ∈ w, isWs c = true) : trim (w ++ s) = trim s := by
  unfold trim
  rw [trimLeft_ws_prepend s hw]

/-- `rstrip` gives `[]` exactly on all-whitespace text. -/
theorem trimRight_eq_nil_iff {s : List Char} :
    trimRight s = [] ↔ ∀ c ∈ s, isWs c = true := by
  unfold trimRight
  rw [List.reverse_eq_nil_iff, List.dropWhile_eq_nil_iff]
  simp [List.mem_reverse]

/-- Appending whitespace does not change `strip`. -/
theorem trim_append_ws {u : List Char} (s : List Char)
    (hu : ∀ c ∈ u, isWs c = true) : trim (s ++ u) = trim s := by
  unfold trim trimLeft
  rw [List.dropWhile_append]
  split
  · rename_i h
    rw [List.isEmpty_iff] at h
    have hu' : u.dropWhile isWs = [] := List.dropWhile_eq_nil_iff.mpr hu
    rw [h, hu']
  · exact trimRight_append_ws _ hu

/-- `strip` gives `[]` exactly on all-whitespace text. -/
theorem trim_eq_nil_iff {s : List Char} :
    trim s = [] ↔ ∀ c ∈ s, isWs c = true := by
  unfold trim
  rw [trimRight_eq_nil_iff]
  constructor
  · intro h c hc
    rw [← List.takeWhile_append_dropWhile (p := isWs) (l := s)] at hc
    rcases List.mem_append.mp hc with h1 | h2
    · exact List.mem_takeWhile_imp h1
    · exact h c h2
  · intro h c hc
    exact h c ((List.dropWhile_sublist (p := isWs) (l := s)).subset hc)

/-- `rstrip` text is a prefix of the text: the dropped suffix is pure
whitespace. -/
theorem trimRight_append_dropped (s : List Char) :
    trimRight s ++ (s.reverse.takeWhile isWs).reverse = s := by
  unfold trimRight
  rw [← List.reverse_append, List.takeWhile_append_dropWhile, List.reverse_reverse]

/-- The suffix removed by `rstrip` is whitespace. -/
theorem trimRight_dropped_ws (s : List Char) :
    ∀ c ∈ (s.reverse.takeWhile isWs).reverse, isWs c = true := by
  intro c hc
  rw [List.mem_reverse] at hc
  exact List.mem_takeWhile_imp hc

/-- An `lstrip`-fixed text stays `lstrip`-fixed after `rstrip`. -/
theorem trimLeft_trimRight_of_fixed {y : List Char} (hy : trimLeft y = y) :
    trimLeft (trimRight y) = trimRight y := by
  cases h : trimRight y with
  | nil => rfl
  | cons a t =>
    have hdec := trimRight_append_dropped y
    rw [h] at hdec
    have hws : isWs a = false := by
      by_contra hws
      rw [Bool.not_eq_false] at hws
      have heq : trimLeft y = trimLeft (t ++ (y.reverse.takeWhile isWs).reverse) := by
        conv_lhs => rw [← hdec]
        simp [trimLeft, List.dropWhile_cons, hws]
      rw [hy] at heq
      have hlen := congrArg List.length heq
      have hle : (trimLeft (t ++ (y.reverse.takeWhile isWs).reverse)).length ≤
          (t ++ (y.reverse.takeWhile isWs).reverse).length :=
        (List.dropWhile_sublist isWs).length_le
      have hy2 := congrArg List.length hdec
      simp only [List.cons_append, List.length_cons, List.length_append] at hlen hle hy2
      omega
    simp [trimLeft, List.dropWhile_cons, hws]

/-- Python `strip` is idempotent. -/
theorem trim_idem (s : List Char) : trim (trim s) = trim s := by
  unfold trim
  rw [trimLeft_trimRight_of_fixed (trimLeft_idem s), trimRight_idem]

/-- The non-whitespace characters of a text. -/
def nonWs (s : List Char) : List Char :=
  s.filter (fun c => !isWs c)

/-- `nonWs` distributes over append. -/
theorem nonWs_append (s t : List Char) : nonWs (s ++ t) = nonWs s ++ nonWs t := by
  unfold nonWs
  exact List.filter_append s t

/-- All-whitespace text has no non-whitespace characters. -/
theorem nonWs_eq_nil {s : List Char} (h : ∀ c ∈ s, isWs c = true) : nonWs s = [] := by
  unfold nonWs
  rw [List.filter_eq_nil_iff]
  intro c hc
  simp [h c hc]

/-- Trimming does not change the non-whitespace characters. -/
theorem nonWs_trim (s : List Char) : nonWs (trim s) = nonWs s := by
  have h1 : nonWs (trimRight (trimLeft s)) = nonWs (trimLeft s) := by
    conv_rhs => rw [← trimRight_append_dropped (trimLeft s)]
    rw [nonWs_append, nonWs_eq_nil (trimRight_dropped_ws (trimLeft s)), List.append_nil]
  have h2 : nonWs (trimLeft s) = nonWs s := by
    conv_rhs => rw [← List.takeWhile_append_dropWhile (p := isWs) (l := s)]
    rw [nonWs_append, nonWs_eq_nil (fun c hc => List.mem_takeWhile_imp hc), List.nil_append]
    rfl
  rw [trim, h1, h2]

end Segmenter

namespace Segmenter

/-! ## C5: the mode flags never collide -/

/-- The marker-open check never touches `in_backticks`. -/
theorem markerOpenStep_inBackticks (ms : List Char) (x : Mid) :
    (markerOpenStep ms x).inBackticks = x.inBackticks := by
  unfold markerOpenStep
  split <;> rfl

/-- The marker-close check never touches `in_backticks`. -/
theorem markerCloseStep_inBackticks (me : List Char) (x : Mid) :
    (markerCloseStep me x).inBackticks = x.inBackticks := by
  unfold markerCloseStep
  split <;> rfl

/-- The marker block never touches `in_backticks`. -/
theorem markerStep_inBackticks (ms me : List Char) (x : Mid) :
    (markerStep ms me x).inBackticks = x.inBackticks := by
  unfold markerStep
  split
  · rw [markerCloseStep_inBackticks, markerOpenStep_inBackticks]
  · rfl

/-- The backtick block never touches `in_marker`. -/
theorem backtickStep_inMarker (x : Mid) : (backtickStep x).inMarker = x.inMarker := by
  unfold backtickStep
  split
  · split
    · rfl
    · split <;> rfl
  · rfl

/-- The sentence loop never touches `in_marker`. -/
theorem sentenceStep_inMarker (x : Mid) : (sentenceStep x).inMarker = x.inMarker := by
  unfold sentenceStep
  split <;> rfl

/-- The sentence loop never touches `in_backticks`. -/
theorem sentenceStep_inBackticks (x : Mid) : (sentenceStep x).inBackticks = x.inBackticks := by
  unfold sentenceStep
  split <;> rfl

/-- Processing one chunk preserves the invariant that `in_marker` and
`in_backticks` are not both set: the backtick block is guarded by
`not in_marker`, and when it runs with `in_backticks` already false it
can only set `in_backticks` while `in_marker` stays false. -/
theorem processChunk_not_both (ms me : List Char) (st : SegState) (chunk : List Char)
    (h : st.inMarker = false ∨ st.inBackticks = false) :
    (processChunk ms me st chunk).1.inMarker = false ∨
      (processChunk ms me st chunk).1.inBackticks = false := by
  obtain ⟨b, fr, m, bt⟩ := st
  simp only [processChunk]
  cases bt with
  | false =>
    cases hm1 : (markerStep ms me ⟨b ++ chunk, m, false, []⟩).inMarker with
    | true =>
      right
      have h2 : backtickStep (markerStep ms me ⟨b ++ chunk, m, false, []⟩)
          = markerStep ms me ⟨b ++ chunk, m, false, []⟩ := by
        unfold backtickStep
        rw [hm1]
        simp
      show (sentenceStep _).inBackticks = false
      rw [sentenceStep_inBackticks, h2, markerStep_inBackticks]
    | false =>
      left
      show (sentenceStep _).inMarker = false
      rw [sentenceStep_inMarker, backtickStep_inMarker, hm1]
  | true =>
    have hmf : m = false := by
      rcases h with h | h
      · simpa using h
      · simp at h
    subst hmf
    left
    have h1 : markerStep ms me (⟨b ++ chunk, false, true, []⟩ : Mid)
        = ⟨b ++ chunk, false, true, []⟩ := by
      unfold markerStep
      simp
    show (sentenceStep _).inMarker = false
    rw [sentenceStep_inMarker, backtickStep_inMarker, h1]

/-- The list of states the generator passes through at chunk boundaries,
starting from `st`. -/
def statesFrom (ms me : List Char) (st : SegState) : List (List Char) → List SegState
  | [] => [st]
  | c :: cs => st :: statesFrom ms me (processChunk ms me st c).1 cs

/-- The flag invariant propagates along any run. -/
theorem statesFrom_not_both (ms me : List Char) (cs : List (List Char)) (st0 : SegState)
    (h0 : st0.inMarker = false ∨ st0.inBackticks = false) :
    ∀ st ∈ statesFrom ms me st0 cs, st.inMarker = false ∨ st.inBackticks = false := by
  induction cs generalizing st0 with
  | nil =>
    intro st hst
    simp only [statesFrom, List.mem_singleton] at hst
    subst hst
    exact h0
  | cons c cs ih =>
    intro st hst
    simp only [statesFrom, List.mem_cons] at hst
    rcases hst with rfl | hst
    · exact h0
    · exact ih _ (processChunk_not_both ms me st0 c h0) st hst

/-- C5: in every state the segmenter reaches while processing a chunk
stream, `in_marker` and `in_backticks` are never simultaneously true;
structurally, marker detection only runs while `in_backticks` is false
(the `if not in_backticks` guard) and backtick detection only while
`in_marker` is false (the `if not in_marker` guard). -/
theorem c5_no_mode_collision (ms me : List Char) (chunks : List (List Char))
    (st : SegState) (hst : st ∈ statesFrom ms me initState chunks) :
    ¬(st.inMarker = true ∧ st.inBackticks = true) := by
  rcases statesFrom_not_both ms me chunks initState (Or.inl rfl) st hst with h | h <;>
    simp [h]

/-- Witness for C5: the state reached after the chunk `"```a"`, which has
`in_backticks` set, does not also have `in_marker` set. -/
theorem c5_witness :
    ¬((⟨"a".toList, "```a".toList, false, true⟩ : SegState).inMarker = true ∧
      (⟨"a".toList, "```a".toList, false, true⟩ : SegState).inBackticks = true) :=
  c5_no_mode_collision defStart defEnd ["```a".toList] _ (by decide)

end Segmenter

namespace Segmenter

/-! ## Event characterization: what each emission point can produce -/

/-- Is an event a `full_response` event? -/
def Event.isFull : Event → Bool
  | .full_response _ => true
  | _ => false

/-- Shape of mid-stream events: a trimmed non-blank sentence, the fixed
confirmation sentence, or some clipboard text. -/
def midShape (e : Event) : Prop :=
  (∃ t, e = .sentence (trim t) ∧ trim t ≠ []) ∨
    e = .sentence confirmation ∨ (∃ t, e = .clipboard_text t)

/-- Events of `emitCut` are trimmed non-blank sentences. -/
theorem emitCut_shape {x : List Char} {e : Event} (he : e ∈ (emitCut x).toList) :
    ∃ t, e = Event.sentence (trim t) ∧ trim t ≠ [] := by
  unfold emitCut at he
  split at he
  · simp at he
  · rename_i h
    simp only [Option.toList_some, List.mem_singleton] at he
    exact ⟨x, he, h⟩

/-- Events of the sentence-extraction loop are trimmed non-blank
sentences. -/
theorem emits_shape {cuts : List (List Char)} {e : Event} (he : e ∈ emits cuts) :
    ∃ t, e = Event.sentence (trim t) ∧ trim t ≠ [] := by
  unfold emits at he
  rw [List.mem_filterMap] at he
  obtain ⟨x, _, hx⟩ := he
  have : e ∈ (emitCut x).toList := by
    simp [hx]
  exact emitCut_shape this

/-- The marker-open check only appends `midShape` events. -/
theorem markerOpenStep_shape (ms : List Char) (x : Mid) :
    ∃ new, (markerOpenStep ms x).events = x.events ++ new ∧ ∀ e ∈ new, midShape e := by
  unfold markerOpenStep
  split
  · exact ⟨_, rfl, fun e he => Or.inl (emitCut_shape he)⟩
  · exact ⟨[], by simp, by simp⟩

/-- The marker-close check only appends `midShape` events. -/
theorem markerCloseStep_shape (me : List Char) (x : Mid) :
    ∃ new, (markerCloseStep me x).events = x.events ++ new ∧ ∀ e ∈ new, midShape e := by
  unfold markerCloseStep
  split
  · refine ⟨_, rfl, ?_⟩
    intro e he
    simp only [List.mem_singleton] at he
    exact Or.inr (Or.inr ⟨_, he⟩)
  · exact ⟨[], by simp, by simp⟩

/-- The marker block only appends `midShape` events. -/
theorem markerStep_shape (ms me : List Char) (x : Mid) :
    ∃ new, (markerStep ms me x).events = x.events ++ new ∧ ∀ e ∈ new, midShape e := by
  unfold markerStep
  split
  · obtain ⟨n1, h1, hs1⟩ := markerOpenStep_shape ms x
    obtain ⟨n2, h2, hs2⟩ := markerCloseStep_shape me (markerOpenStep ms x)
    refine ⟨n1 ++ n2, ?_, ?_⟩
    · rw [h2, h1, List.append_assoc]
    · intro e he
      rcases List.mem_append.mp he with h | h
      · exact hs1 e h
      · exact hs2 e h
  · exact ⟨[], by simp, by simp⟩

/-- The backtick block only appends `midShape` events. -/
theorem backtickStep_shape (x : Mid) :
    ∃ new, (backtickStep x).events = x.events ++ new ∧ ∀ e ∈ new, midShape e := by
  unfold backtickStep
  split
  · split
    · exact ⟨_, rfl, fun e he => Or.inl (emitCut_shape he)⟩
    · split
      · refine ⟨_, rfl, ?_⟩
        intro e he
        simp only [List.mem_cons, List.not_mem_nil, or_false] at he
        rcases he with he | he
        · exact Or.inr (Or.inr ⟨_, he⟩)
        · exact Or.inr (Or.inl he)
      · exact ⟨[], by simp, by simp⟩
  · exact ⟨[], by simp, by simp⟩

/-- The sentence loop only appends `midShape` events. -/
theorem sentenceStep_shape (x : Mid) :
    ∃ new, (sentenceStep x).events = x.events ++ new ∧ ∀ e ∈ new, midShape e := by
  unfold sentenceStep
  split
  · exact ⟨_, rfl, fun e he => Or.inl (emits_shape he)⟩
  · exact ⟨[], by simp, by simp⟩

/-- Events of one chunk step match `midShape`. -/
theorem processChunk_shape (ms me : List Char) (st : SegState) (c : List Char) :
    ∀ e ∈ (processChunk ms me st c).2, midShape e := by
  intro e he
  obtain ⟨n1, h1, hs1⟩ :=
    markerStep_shape ms me ⟨st.buffer ++ c, st.inMarker, st.inBackticks, []⟩
  obtain ⟨n2, h2, hs2⟩ :=
    backtickStep_shape (markerStep ms me ⟨st.buffer ++ c, st.inMarker, st.inBackticks, []⟩)
  obtain ⟨n3, h3, hs3⟩ :=
    sentenceStep_shape
      (backtickStep (markerStep ms me ⟨st.buffer ++ c, st.inMarker, st.inBackticks, []⟩))
  have hev : (processChunk ms me st c).2 = (n1 ++ n2) ++ n3 := by
    show (sentenceStep (backtickStep (markerStep ms me
      ⟨st.buffer ++ c, st.inMarker, st.inBackticks, []⟩))).events = (n1 ++ n2) ++ n3
    rw [h3, h2, h1]
    simp
  rw [hev] at he
  rcases List.mem_append.mp he with h | h
  · rcases List.mem_append.mp h with h' | h'
    · exact hs1 e h'
    · exact hs2 e h'
  · exact hs3 e h

/-- Events of a whole run match `midShape`. -/
theorem runChunks_shape (ms me : List Char) (cs : List (List Char)) (st : SegState) :
    ∀ e ∈ (runChunks ms me st cs).2, midShape e := by
  induction cs generalizing st with
  | nil => intro e he; simp [runChunks] at he
  | cons c cs ih =>
    intro e he
    simp only [runChunks] at he
    rcases List.mem_append.mp he with h1 | h2
    · exact processChunk_shape ms me st c e h1
    · exact ih _ e h2

/-- Flush events are trimmed non-blank sentences or clipboard text. -/
theorem flushEvents_shape (st : SegState) :
    ∀ e ∈ flushEvents st, midShape e := by
  intro e he
  unfold flushEvents at he
  split at he
  · rename_i h
    split at he
    · simp only [List.mem_singleton] at he
      exact Or.inr (Or.inr ⟨_, he⟩)
    · split at he
      · simp only [List.mem_singleton] at he
        subst he
        exact Or.inl ⟨st.buffer, rfl, h⟩
      · simp only [List.mem_singleton] at he
        exact Or.inr (Or.inr ⟨_, he⟩)
  · simp at he

/-- `midShape` events are never `full_response` events. -/
theorem midShape_not_full {e : Event} (h : midShape e) : e.isFull = false := by
  rcases h with ⟨t, rfl, _⟩ | rfl | ⟨t, rfl⟩ <;> rfl

/-- The accumulated `full_response` is exactly the concatenation of the
chunks consumed so far. -/
theorem runChunks_fullResponse (ms me : List Char) (cs : List (List Char)) (st : SegState) :
    (runChunks ms me st cs).1.fullResponse = st.fullResponse ++ cs.flatten := by
  induction cs generalizing st with
  | nil => simp [runChunks]
  | cons c cs ih =>
    simp only [runChunks, List.flatten_cons]
    rw [ih]
    have : (processChunk ms me st c).1.fullResponse = st.fullResponse ++ c := rfl
    rw [this, List.append_assoc]

end Segmenter

namespace Segmenter

/-! ## C4: the full_response event -/

/-- C4: the `full_response` event carries exactly the concatenation of
all input chunks, trimmed; it appears exactly once when that trimmed
concatenation is non-empty and never otherwise; and when it appears it is
the last event of the run (hence only after the stream is exhausted). -/
theorem c4_full_response (ms me : List Char) (chunks : List (List Char)) :
    ((runSegmenter ms me chunks).filter Event.isFull =
      if trim chunks.flatten = [] then []
      else [.full_response (trim chunks.flatten)]) ∧
    (trim chunks.flatten ≠ [] →
      (runSegmenter ms me chunks).getLast? =
        some (.full_response (trim chunks.flatten))) := by
  have hfr : (runChunks ms me initState chunks).1.fullResponse = chunks.flatten := by
    rw [runChunks_fullResponse]
    rfl
  constructor
  · simp only [runSegmenter]
    rw [List.filter_append, List.filter_append]
    have h1 : List.filter Event.isFull (runChunks ms me initState chunks).2 = [] :=
      List.filter_eq_nil_iff.mpr (fun e he => by
        simp [midShape_not_full (runChunks_shape ms me chunks initState e he)])
    have h2 : List.filter Event.isFull
        (flushEvents (runChunks ms me initState chunks).1) = [] :=
      List.filter_eq_nil_iff.mpr (fun e he => by
        simp [midShape_not_full (flushEvents_shape _ e he)])
    rw [h1, h2, List.nil_append, List.nil_append]
    unfold fullEvent
    rw [hfr]
    by_cases hb : trim chunks.flatten = []
    · simp [hb]
    · simp [hb, Event.isFull]
  · intro hb
    simp only [runSegmenter]
    have hfe : fullEvent (runChunks ms me initState chunks).1 =
        [.full_response (trim chunks.flatten)] := by
      unfold fullEvent
      rw [hfr]
      simp [hb]
    rw [hfe]
    exact List.getLast?_concat _

/-- Witness for C4: on the single chunk `"Hi."` the final event is the
trimmed full response. -/
theorem c4_witness :
    (runSegmenter defStart defEnd ["Hi.".toList]).getLast? =
      some (.full_response "Hi.".toList) :=
  (c4_full_response defStart defEnd ["Hi.".toList]).2 (by decide)

/-! ## C8: blank payloads -/

/-- C8: every event whose payload is blank after trimming is a
`clipboard_text` event — blank sentences are suppressed at every
emission point and a blank `full_response` is suppressed by its guard —
and the marker-closing emission really does produce a blank
`clipboard_text` event, as on input `"-CLIPSTART--CLIPEND-"`. -/
theorem c8_blank_suppression :
    (∀ (ms me : List Char) (chunks : List (List Char)) (e : Event),
        e ∈ runSegmenter ms me chunks → trim e.payload = [] →
        e.tag = "clipboard_text") ∧
    runSegmenter defStart defEnd ["-CLIPSTART--CLIPEND-".toList] =
      [.clipboard_text [], .full_response "-CLIPSTART--CLIPEND-".toList] := by
  constructor
  · intro ms me chunks e he hblank
    simp only [runSegmenter] at he
    rcases List.mem_append.mp he with h1 | h2
    · have hmid : midShape e := by
        rcases List.mem_append.mp h1 with h3 | h4
        · exact runChunks_shape ms me chunks initState e h3
        · exact flushEvents_shape _ e h4
      rcases hmid with ⟨t, rfl, hne⟩ | rfl | ⟨t, rfl⟩
      · exfalso
        apply hne
        simp only [Event.payload] at hblank
        rwa [trim_idem] at hblank
      · exfalso
        simp only [Event.payload] at hblank
        exact absurd hblank (by decide)
      · rfl
    · unfold fullEvent at h2
      split at h2
      · rename_i hg
        simp only [List.mem_singleton] at h2
        subst h2
        exfalso
        apply hg
        simp only [Event.payload] at hblank
        rwa [trim_idem] at hblank
      · simp at h2
  · decide

/-- Witness for C8: the blank clipboard event emitted for
`"-CLIPSTART--CLIPEND-"` is classified as clipboard text. -/
theorem c8_witness : (Event.clipboard_text []).tag = "clipboard_text" :=
  c8_blank_suppression.1 defStart defEnd ["-CLIPSTART--CLIPEND-".toList]
    (.clipboard_text []) (by decide) (by decide)

end Segmenter

namespace Segmenter

/-! ## C7: end-of-stream flush -/

/-- C7: when the buffer is non-blank at end of stream, the flush emits a
reopened-fence clipboard event if `in_backticks` is set, a sentence event
if neither flag is set, and an unfenced clipboard event if `in_marker` is
set (the flags are never both set on reachable states, see
`c5_no_mode_collision`); in particular `"abc ```def"` yields the sentence
`"abc"` and then, at flush, the clipboard text `"```def"` with the fence
reopened but not closed. -/
theorem c7_flush (st : SegState) (h : trim st.buffer ≠ []) :
    ((st.inBackticks = true →
        flushEvents st = [.clipboard_text (backticks ++ trim st.buffer)]) ∧
      (st.inBackticks = false → st.inMarker = false →
        flushEvents st = [.sentence (trim st.buffer)]) ∧
      (st.inBackticks = false → st.inMarker = true →
        flushEvents st = [.clipboard_text (trim st.buffer)])) ∧
    runSegmenter defStart defEnd ["abc ```def".toList] =
      [.sentence "abc".toList,
       .clipboard_text "```def".toList,
       .full_response "abc ```def".toList] := by
  refine ⟨⟨?_, ?_, ?_⟩, by decide⟩
  · intro hb
    simp [flushEvents, h, hb]
  · intro hb hm
    simp [flushEvents, h, hb, hm]
  · intro hb hm
    simp [flushEvents, h, hb, hm]

/-- Witness for C7: flushing the state left by the chunk `"abc ```def"`
(buffer `"def"`, inside backticks) emits the reopened-fence clipboard
event. -/
theorem c7_witness :
    flushEvents ⟨"def".toList, "abc ```def".toList, false, true⟩ =
      [.clipboard_text "```def".toList] :=
  ((c7_flush ⟨"def".toList, "abc ```def".toList, false, true⟩ (by decide)).1.1 rfl)

end Segmenter

namespace Segmenter

/-! ## Infrastructure: bounds and unfolding for `extract`,
occurrence decomposition for `containsSub` -/

/-- The whitespace run never exceeds the text length. -/
theorem wsRun_le (s : List Char) : wsRun s ≤ s.length := by
  induction s with
  | nil => exact Nat.le_refl 0
  | cons c t ih =>
    unfold wsRun
    split
    · simpa using Nat.succ_le_succ ih
    · exact Nat.zero_le _

/-- A match end found by the scanner stays within the remaining text. -/
theorem boundEndAux_le (p : Char) (t : List Char) (k : Nat)
    (h : boundEndAux p t = some k) : k ≤ t.length := by
  induction t generalizing p k with
  | nil =>
    unfold boundEndAux at h
    split at h
    · injection h with h
      omega
    · cases h
  | cons c t ih =>
    unfold boundEndAux at h
    split at h
    · injection h with h
      subst h
      exact wsRun_le (c :: t)
    · split at h
      · injection h with h
        omega
      · rcases Option.map_eq_some'.mp h with ⟨k', hk', rfl⟩
        exact Nat.succ_le_succ (ih c k' hk')

/-- A boundary end is at least 1 and at most the buffer length. -/
theorem boundEnd_bounds {s : List Char} {e : Nat} (h : boundEnd s = some e) :
    1 ≤ e ∧ e ≤ s.length := by
  cases s with
  | nil => cases h
  | cons c t =>
    unfold boundEnd at h
    rcases Option.map_eq_some'.mp h with ⟨k, hk, rfl⟩
    exact ⟨Nat.succ_le_succ (Nat.zero_le _), Nat.succ_le_succ (boundEndAux_le c t k hk)⟩

/-- One unfolding of `extractFuel` when no boundary matches. -/
theorem extractFuel_succ_none {s : List Char} (f : Nat) (h : boundEnd s = none) :
    extractFuel (f + 1) s = ([], s) := by
  unfold extractFuel
  rw [h]

/-- One unfolding of `extractFuel` when a boundary ends at `e`. -/
theorem extractFuel_succ_some {s : List Char} {e : Nat} (f : Nat)
    (h : boundEnd s = some e) :
    extractFuel (f + 1) s =
      (s.take e :: (extractFuel f (s.drop e)).1, (extractFuel f (s.drop e)).2) := by
  conv_lhs => unfold extractFuel
  rw [h]

/-- Any sufficient fuel computes the same extraction. -/
theorem extractFuel_congr : ∀ (f g : Nat) (s : List Char),
    s.length ≤ f → s.length ≤ g → extractFuel f s = extractFuel g s := by
  intro f
  induction f with
  | zero =>
    intro g s hf _
    have : s = [] := List.length_eq_zero.mp (Nat.le_zero.mp hf)
    subst this
    cases g with
    | zero => rfl
    | succ g => rfl
  | succ f ih =>
    intro g s hf hg
    cases g with
    | zero =>
      have : s = [] := List.length_eq_zero.mp (Nat.le_zero.mp hg)
      subst this
      rfl
    | succ g =>
      cases hb : boundEnd s with
      | none => rw [extractFuel_succ_none f hb, extractFuel_succ_none g hb]
      | some e =>
        obtain ⟨h1, h2⟩ := boundEnd_bounds hb
        have hd : (s.drop e).length ≤ f := by
          rw [List.length_drop]
          omega
        have hd' : (s.drop e).length ≤ g := by
          rw [List.length_drop]
          omega
        rw [extractFuel_succ_some f hb, extractFuel_succ_some g hb,
          ih g (s.drop e) hd hd']

/-- `extract` on a buffer with no boundary: the loop exits at once. -/
theorem extract_of_none {s : List Char} (h : boundEnd s = none) :
    extract s = ([], s) := by
  cases s with
  | nil => rfl
  | cons c t =>
    show extractFuel (t.length + 1) (c :: t) = ([], c :: t)
    exact extractFuel_succ_none t.length h

/-- `extract` on a buffer with a boundary ending at `e`: cut there and
continue on the remainder. -/
theorem extract_of_some {s : List Char} {e : Nat} (h : boundEnd s = some e) :
    extract s = (s.take e :: (extract (s.drop e)).1, (extract (s.drop e)).2) := by
  obtain ⟨h1, h2⟩ := boundEnd_bounds h
  cases s with
  | nil => cases h
  | cons c t =>
    show extractFuel (t.length + 1) (c :: t) = _
    rw [extractFuel_succ_some t.length h]
    have hdrop : ((c :: t).drop e).length ≤ t.length := by
      rw [List.length_drop]
      simp only [List.length_cons] at h2 ⊢
      omega
    rw [extractFuel_congr t.length ((c :: t).drop e).length ((c :: t).drop e) hdrop
      (Nat.le_refl _)]
    rfl

/-- The remainder left by the extraction loop has no boundary. -/
theorem extract_rem_none (s : List Char) : boundEnd (extract s).2 = none := by
  have key : ∀ (n : Nat) (s : List Char), s.length ≤ n → boundEnd (extract s).2 = none := by
    intro n
    induction n with
    | zero =>
      intro s hs
      have : s = [] := List.length_eq_zero.mp (Nat.le_zero.mp hs)
      subst this
      rfl
    | succ n ih =>
      intro s hs
      cases hb : boundEnd s with
      | none =>
        rw [extract_of_none hb]
        exact hb
      | some e =>
        rw [extract_of_some hb]
        obtain ⟨h1, h2⟩ := boundEnd_bounds hb
        exact ih (s.drop e) (by rw [List.length_drop]; omega)
  exact key s.length s (Nat.le_refl _)

/-- The cuts and the remainder of the extraction loop partition the
buffer. -/
theorem extract_partition (s : List Char) :
    (extract s).1.flatten ++ (extract s).2 = s := by
  have key : ∀ (n : Nat) (s : List Char), s.length ≤ n →
      (extract s).1.flatten ++ (extract s).2 = s := by
    intro n
    induction n with
    | zero =>
      intro s hs
      have : s = [] := List.length_eq_zero.mp (Nat.le_zero.mp hs)
      subst this
      rfl
    | succ n ih =>
      intro s hs
      cases hb : boundEnd s with
      | none =>
        rw [extract_of_none hb]
        rfl
      | some e =>
        rw [extract_of_some hb]
        obtain ⟨h1, h2⟩ := boundEnd_bounds hb
        have := ih (s.drop e) (by rw [List.length_drop]; omega)
        simp only [List.flatten_cons, List.append_assoc, this]
        exact List.take_append_drop e s
  exact key s.length s (Nat.le_refl _)

/-- Unfolding of `sep in s` on a cons cell: a match here or a match
further right. -/
theorem containsSub_cons (sep : List Char) (c : Char) (rest : List Char) :
    containsSub sep (c :: rest) =
      (sep.isPrefixOf (c :: rest) || containsSub sep rest) := by
  show (findSub sep (c :: rest)).isSome = _
  conv_lhs => unfold findSub
  split
  · rename_i hp
    simp [hp]
  · rename_i hp
    simp only [Option.isSome_map']
    simp [hp, containsSub]

/-- `sep in s` holds exactly when `s` decomposes around an occurrence of
`sep`. -/
theorem containsSub_iff {sep s : List Char} :
    containsSub sep s = true ↔ ∃ u v, s = u ++ sep ++ v := by
  constructor
  · intro h
    induction s with
    | nil =>
      unfold containsSub findSub at h
      split at h
      · rename_i hsep
        exact ⟨[], [], by simp [hsep]⟩
      · cases h
    | cons c rest ih =>
      rw [containsSub_cons, Bool.or_eq_true] at h
      rcases h with h | h
      · rw [List.isPrefixOf_iff_prefix] at h
        obtain ⟨v, hv⟩ := h
        exact ⟨[], v, by simp [hv.symm]⟩
      · obtain ⟨u, v, huv⟩ := ih h
        exact ⟨c :: u, v, by simp [huv]⟩
  · rintro ⟨u, v, rfl⟩
    induction u with
    | nil =>
      cases hsep : sep with
      | nil =>
        cases v with
        | nil => rfl
        | cons a w =>
          rw [List.nil_append, List.nil_append, containsSub_cons]
          simp
      | cons a w =>
        rw [List.nil_append, List.cons_append, containsSub_cons]
        have : (a :: w).isPrefixOf (a :: (w ++ v)) = true := by
          rw [List.isPrefixOf_iff_prefix]
          exact ⟨v, by simp⟩
        simp [this]
    | cons c u ih =>
      rw [List.cons_append, List.cons_append, containsSub_cons]
      simp only [List.append_assoc] at ih
      simp [ih]

/-- No occurrence in a string means no occurrence in any infix of it. -/
theorem containsSub_infix_false {sep big x : List Char}
    (hbig : containsSub sep big = false) (hinf : x <:+: big) :
    containsSub sep x = false := by
  by_contra h
  rw [Bool.not_eq_false] at h
  obtain ⟨u, v, rfl⟩ := containsSub_iff.mp h
  obtain ⟨u', v', rfl⟩ := hinf
  rw [containsSub_iff.mpr ⟨u' ++ u, v ++ v', by simp⟩] at hbig
  cases hbig

end Segmenter

namespace Segmenter

/-! ## No-delimiter no-ops and the clean chunk equation -/

/-- The marker-open check does nothing when the start marker is absent. -/
theorem markerOpenStep_noop {ms : List Char} {x : Mid}
    (h : containsSub ms x.buffer = false) : markerOpenStep ms x = x := by
  unfold markerOpenStep
  rw [h]
  simp

/-- The marker-close check does nothing when the end marker is absent. -/
theorem markerCloseStep_noop {me : List Char} {x : Mid}
    (h : containsSub me x.buffer = false) : markerCloseStep me x = x := by
  unfold markerCloseStep
  rw [h]
  simp

/-- The marker block does nothing when neither marker is present. -/
theorem markerStep_noop {ms me : List Char} {x : Mid}
    (hs : containsSub ms x.buffer = false) (he : containsSub me x.buffer = false) :
    markerStep ms me x = x := by
  unfold markerStep
  split
  · rw [markerOpenStep_noop hs, markerCloseStep_noop he]
  · rfl

/-- The backtick block does nothing when no fence is present. -/
theorem backtickStep_noop {x : Mid}
    (h : containsSub backticks x.buffer = false) : backtickStep x = x := by
  unfold backtickStep
  rw [h]
  simp

/-- With both flags clear, the sentence loop runs on the buffer. -/
theorem sentenceStep_clean {x : Mid} (hm : x.inMarker = false)
    (hb : x.inBackticks = false) :
    sentenceStep x = ⟨(extract x.buffer).2, x.inMarker, x.inBackticks,
      x.events ++ emits (extract x.buffer).1⟩ := by
  unfold sentenceStep
  rw [hm, hb]
  simp

/-- With both flags clear and no delimiter in the extended buffer, a
chunk step is exactly the sentence-extraction loop on
`buffer ++ chunk`. -/
theorem processChunk_clean (ms me : List Char) (st : SegState) (chunk : List Char)
    (hm : st.inMarker = false) (hb : st.inBackticks = false)
    (h1 : containsSub ms (st.buffer ++ chunk) = false)
    (h2 : containsSub me (st.buffer ++ chunk) = false)
    (h3 : containsSub backticks (st.buffer ++ chunk) = false) :
    processChunk ms me st chunk =
      (⟨(extract (st.buffer ++ chunk)).2, st.fullResponse ++ chunk, false, false⟩,
        emits (extract (st.buffer ++ chunk)).1) := by
  unfold processChunk
  rw [hm, hb]
  rw [markerStep_noop h1 h2, backtickStep_noop h3, sentenceStep_clean rfl rfl]
  simp

/-! ## C9: declarative characterization of sentence boundaries -/

/-- The spec's sentence boundary: position `i` of the buffer is
immediately after a `.`, `!` or `?` that is followed by whitespace, or
immediately after a newline; `e` is the end of the corresponding regex
match (after the greedy whitespace run for the punctuation alternative,
the zero-width position `i` itself for the newline alternative). -/
def BoundaryAt (s : List Char) (i e : Nat) : Prop :=
  ∃ u p v, s = u ++ p :: v ∧ u.length + 1 = i ∧
    ((isEnding p = true ∧ (∃ w v', v = w :: v' ∧ isWs w = true) ∧ e = i + wsRun v) ∨
     (p = '\n' ∧ e = i))

/-- Boundaries start at position 1 at the earliest and end no earlier
than they start. -/
theorem BoundaryAt_pos {s : List Char} {i e : Nat} (h : BoundaryAt s i e) :
    1 ≤ i ∧ i ≤ e := by
  obtain ⟨u, p, v, hs, hi, hcase⟩ := h
  rcases hcase with ⟨-, -, he⟩ | ⟨-, he⟩ <;> omega

/-- Boundary at position 1 of a cons cell, explicitly. -/
theorem BoundaryAt_one {c : Char} {s : List Char} {e : Nat} :
    BoundaryAt (c :: s) 1 e ↔
      ((isEnding c = true ∧ (∃ w v', s = w :: v' ∧ isWs w = true) ∧ e = 1 + wsRun s) ∨
       (c = '\n' ∧ e = 1)) := by
  constructor
  · rintro ⟨u, p, v, hs, hi, hcase⟩
    have hu : u = [] := by
      cases u with
      | nil => rfl
      | cons a u' => simp at hi
    subst hu
    rw [List.nil_append] at hs
    injection hs with h1 h2
    subst h1
    subst h2
    exact hcase
  · intro hcase
    exact ⟨[], c, s, rfl, rfl, hcase⟩

/-- Shifting a boundary past the first character of the buffer. -/
theorem BoundaryAt_shift {c : Char} {s : List Char} {i e : Nat} :
    BoundaryAt (c :: s) (i + 2) (e + 1) ↔ BoundaryAt s (i + 1) e := by
  constructor
  · rintro ⟨u, p, v, hs, hi, hcase⟩
    cases u with
    | nil => simp at hi
    | cons a u' =>
      rw [List.cons_append] at hs
      injection hs with h1 h2
      refine ⟨u', p, v, h2, ?_, ?_⟩
      · simp only [List.length_cons] at hi
        omega
      · rcases hcase with ⟨ha, hw, he⟩ | ⟨ha, he⟩
        · exact Or.inl ⟨ha, hw, by omega⟩
        · exact Or.inr ⟨ha, by omega⟩
  · rintro ⟨u, p, v, hs, hi, hcase⟩
    refine ⟨c :: u, p, v, by rw [List.cons_append, hs], ?_, ?_⟩
    · simp only [List.length_cons]
      omega
    · rcases hcase with ⟨ha, hw, he⟩ | ⟨ha, he⟩
      · exact Or.inl ⟨ha, hw, by omega⟩
      · exact Or.inr ⟨ha, by omega⟩

/-- The scanner finds exactly the leftmost declarative boundary: if it
reports nothing there is no boundary, and if it reports end `k` (relative
to the tail) there is a boundary ending at `k + 1` whose position is
minimal. -/
theorem boundEndAux_leftmost (t : List Char) : ∀ p : Char,
    (boundEndAux p t = none → ∀ i e, ¬ BoundaryAt (p :: t) i e) ∧
    (∀ k, boundEndAux p t = some k →
      ∃ i, BoundaryAt (p :: t) i (k + 1) ∧
        ∀ i' e', BoundaryAt (p :: t) i' e' → i ≤ i') := by
  induction t with
  | nil =>
    intro p
    constructor
    · intro hnone i e hbd
      have hp : p ≠ '\n' := by
        intro hp
        rw [hp] at hnone
        simp [boundEndAux] at hnone
      obtain ⟨u, q, v, hs, hi, hcase⟩ := hbd
      cases u with
      | cons a u' =>
        have := congrArg List.length hs
        simp at this
      | nil =>
        rw [List.nil_append] at hs
        injection hs with h1 h2
        subst h1
        rcases hcase with ⟨-, ⟨w, v', hv, -⟩, -⟩ | ⟨ha, -⟩
        · rw [← h2] at hv
          cases hv
        · exact hp ha
    · intro k hk
      have hp : p = '\n' ∧ k = 0 := by
        unfold boundEndAux at hk
        split at hk
        · rename_i h
          injection hk with hk
          exact ⟨h, hk.symm⟩
        · cases hk
      obtain ⟨rfl, rfl⟩ := hp
      refine ⟨1, ⟨[], '\n', [], rfl, rfl, Or.inr ⟨rfl, rfl⟩⟩, ?_⟩
      intro i' e' hbd
      exact (BoundaryAt_pos hbd).1
  | cons c t ih =>
    intro p
    constructor
    · intro hnone i e hbd
      have h1 : ¬(isEnding p && isWs c) = true := by
        intro hc
        unfold boundEndAux at hnone
        rw [if_pos hc] at hnone
        cases hnone
      have h2 : p ≠ '\n' := by
        intro hp
        unfold boundEndAux at hnone
        rw [if_neg h1, if_pos hp] at hnone
        cases hnone
      have h3 : boundEndAux c t = none := by
        unfold boundEndAux at hnone
        rw [if_neg h1, if_neg h2] at hnone
        exact Option.map_eq_none'.mp hnone
      obtain ⟨hi1, hie⟩ := BoundaryAt_pos hbd
      rcases Nat.lt_or_ge i 2 with hlt | hge
      · have : i = 1 := by omega
        subst this
        rw [BoundaryAt_one] at hbd
        rcases hbd with ⟨ha, ⟨w, v', hv, hw⟩, -⟩ | ⟨ha, -⟩
        · apply h1
          rw [Bool.and_eq_true]
          injection hv with hv1 hv2
          exact ⟨ha, by rw [hv1]; exact hw⟩
        · exact h2 ha
      · obtain ⟨i', rfl⟩ : ∃ i', i = i' + 2 := ⟨i - 2, by omega⟩
        obtain ⟨e', rfl⟩ : ∃ e', e = e' + 1 := ⟨e - 1, by omega⟩
        rw [BoundaryAt_shift] at hbd
        exact (ih c).1 h3 (i' + 1) e' hbd
    · intro k hk
      unfold boundEndAux at hk
      split at hk
      · rename_i hcond
        injection hk with hk
        rw [Bool.and_eq_true] at hcond
        refine ⟨1, ?_, fun i' e' hbd => (BoundaryAt_pos hbd).1⟩
        rw [BoundaryAt_one]
        exact Or.inl ⟨hcond.1, ⟨c, t, rfl, hcond.2⟩, by omega⟩
      · split at hk
        · rename_i hcond hnl
          injection hk with hk
          subst hk
          refine ⟨1, ?_, fun i' e' hbd => (BoundaryAt_pos hbd).1⟩
          rw [BoundaryAt_one]
          exact Or.inr ⟨hnl, rfl⟩
        · rename_i hcond hnl
          rcases Option.map_eq_some'.mp hk with ⟨k', hk', rfl⟩
          obtain ⟨i', hbd', hmin'⟩ := (ih c).2 k' hk'
          obtain ⟨hi1, -⟩ := BoundaryAt_pos hbd'
          obtain ⟨i'', rfl⟩ : ∃ i'', i' = i'' + 1 := ⟨i' - 1, by omega⟩
          refine ⟨i'' + 2, ?_, ?_⟩
          · rw [BoundaryAt_shift]
            exact hbd'
          · intro j e' hbd
            obtain ⟨hj1, hje⟩ := BoundaryAt_pos hbd
            rcases Nat.lt_or_ge j 2 with hlt | hge
            · have : j = 1 := by omega
              subst this
              rw [BoundaryAt_one] at hbd
              rcases hbd with ⟨ha, ⟨w, v', hv, hw⟩, -⟩ | ⟨ha, -⟩
              · apply absurd ?_ hcond
                rw [Bool.and_eq_true]
                injection hv with hv1 hv2
                exact ⟨ha, by rw [hv1]; exact hw⟩
              · exact absurd ha hnl
            · obtain ⟨j', rfl⟩ : ∃ j', j = j' + 2 := ⟨j - 2, by omega⟩
              obtain ⟨e'', rfl⟩ : ∃ e'', e' = e'' + 1 := ⟨e' - 1, by omega⟩
              rw [BoundaryAt_shift] at hbd
              have := hmin' (j' + 1) e'' hbd
              omega

/-- The regex search fails exactly when the buffer has no declarative
sentence boundary. -/
theorem boundEnd_none_iff (s : List Char) :
    boundEnd s = none ↔ ∀ i e, ¬ BoundaryAt s i e := by
  cases s with
  | nil =>
    constructor
    · intro _ i e hbd
      obtain ⟨u, p, v, hs, -, -⟩ := hbd
      have := congrArg List.length hs
      simp at this
      omega
    · intro _
      rfl
  | cons c t =>
    constructor
    · intro h
      have hx : boundEndAux c t = none := Option.map_eq_none'.mp h
      exact (boundEndAux_leftmost t c).1 hx
    · intro h
      cases hb : boundEndAux c t with
      | none =>
        show (boundEndAux c t).map (· + 1) = none
        rw [hb]
        rfl
      | some k =>
        obtain ⟨i, hbd, -⟩ := (boundEndAux_leftmost t c).2 k hb
        exact absurd hbd (h i (k + 1))

/-- A successful regex search returns the match end of the leftmost
declarative boundary. -/
theorem boundEnd_some_leftmost {s : List Char} {e : Nat} (h : boundEnd s = some e) :
    ∃ i, BoundaryAt s i e ∧ ∀ i' e', BoundaryAt s i' e' → i ≤ i' := by
  cases s with
  | nil => cases h
  | cons c t =>
    rcases Option.map_eq_some'.mp h with ⟨k, hk, rfl⟩
    exact (boundEndAux_leftmost t c).2 k hk

end Segmenter

namespace Segmenter

/-- C9: the sentence-extraction loop.  The regex search fails exactly
when no declarative boundary (a position immediately after `.`, `!` or
`?` followed by whitespace, or immediately after a newline) exists, and
otherwise returns the match end of the leftmost boundary; the loop cuts
the buffer there, emits each cut prefix trimmed when non-blank (the
`emits`/`emitCut` rule), repeats on the remainder, stops when the
remainder has no boundary, and the remainder stays buffered: with both
flags clear and no delimiters in reach, a chunk step is exactly this loop
on `buffer ++ chunk`. -/
theorem c9_sentence_extraction :
    (∀ s : List Char, boundEnd s = none ↔ ∀ i e, ¬ BoundaryAt s i e) ∧
    (∀ (s : List Char) (e : Nat), boundEnd s = some e →
      ∃ i, BoundaryAt s i e ∧ ∀ i' e', BoundaryAt s i' e' → i ≤ i') ∧
    (∀ s : List Char, boundEnd s = none → extract s = ([], s)) ∧
    (∀ (s : List Char) (e : Nat), boundEnd s = some e →
      extract s = (s.take e :: (extract (s.drop e)).1, (extract (s.drop e)).2)) ∧
    (∀ s : List Char, boundEnd (extract s).2 = none) ∧
    (∀ (ms me : List Char) (st : SegState) (chunk : List Char),
      st.inMarker = false → st.inBackticks = false →
      containsSub ms (st.buffer ++ chunk) = false →
      containsSub me (st.buffer ++ chunk) = false →
      containsSub backticks (st.buffer ++ chunk) = false →
      processChunk ms me st chunk =
        (⟨(extract (st.buffer ++ chunk)).2, st.fullResponse ++ chunk, false, false⟩,
          emits (extract (st.buffer ++ chunk)).1)) :=
  ⟨boundEnd_none_iff,
   fun _ _ h => boundEnd_some_leftmost h,
   fun _ h => extract_of_none h,
   fun _ _ h => extract_of_some h,
   extract_rem_none,
   processChunk_clean⟩

/-- Witness for C9: processing the single chunk `"a. b"` from the
initial state cuts at the boundary after `"a."`, emits the trimmed
sentence, and leaves `"b"` buffered. -/
theorem c9_witness :
    processChunk defStart defEnd initState "a. b".toList =
      (⟨"b".toList, "a. b".toList, false, false⟩, [.sentence "a.".toList]) :=
  c9_sentence_extraction.2.2.2.2.2 defStart defEnd initState "a. b".toList rfl rfl
    (by decide) (by decide) (by decide)

end Segmenter

namespace Segmenter

/-! ## Boundaries and whitespace: shift lemmas for the streaming proof -/

/-- Whitespace characters are not sentence-ending punctuation. -/
theorem isEnding_eq_false_of_isWs {c : Char} (h : isWs c = true) :
    isEnding c = false := by
  cases hE : isEnding c with
  | false => rfl
  | true =>
    exfalso
    simp only [isEnding, Bool.or_eq_true, decide_eq_true_eq] at hE
    rcases hE with (rfl | rfl) | rfl <;> exact absurd h (by decide)

/-- Scanning just after a whitespace non-newline character is the same as
a fresh search on the rest. -/
theorem boundEndAux_ws_eq {p : Char} (hw : isWs p = true) (hn : p ≠ '\n')
    (x : List Char) : boundEndAux p x = boundEnd x := by
  cases x with
  | nil => simp [boundEndAux, boundEnd, hn]
  | cons c t =>
    show boundEndAux p (c :: t) = (boundEndAux c t).map (· + 1)
    conv_lhs => unfold boundEndAux
    rw [if_neg ?notEnd, if_neg hn]
    case notEnd => simp [isEnding_eq_false_of_isWs hw]

/-- Prepending newline-free whitespace shifts the match end. -/
theorem boundEnd_ws_prepend {w : List Char} (x : List Char)
    (hw : ∀ c ∈ w, isWs c = true ∧ c ≠ '\n') :
    boundEnd (w ++ x) = (boundEnd x).map (· + w.length) := by
  induction w with
  | nil =>
    cases h : boundEnd x with
    | none => simp [h]
    | some k => simp [h]
  | cons c w' ih =>
    have hc := hw c (List.mem_cons_self c w')
    show (boundEndAux c (w' ++ x)).map (· + 1) = _
    rw [boundEndAux_ws_eq hc.1 hc.2 (w' ++ x),
      ih (fun d hd => hw d (List.mem_cons_of_mem c hd))]
    cases boundEnd x with
    | none => rfl
    | some k =>
      simp only [Option.map_some', List.length_cons]
      exact congrArg some (by omega)

/-- Newline-free whitespace has no boundary. -/
theorem boundEnd_all_ws {w : List Char}
    (hw : ∀ c ∈ w, isWs c = true ∧ c ≠ '\n') : boundEnd w = none := by
  have h := boundEnd_ws_prepend [] hw
  rw [List.append_nil] at h
  simpa using h

/-- Right after a newline the scanner always reports the zero-width
match. -/
theorem boundEndAux_newline (r : List Char) : boundEndAux '\n' r = some 0 := by
  cases r with
  | nil => rfl
  | cons d r' =>
    unfold boundEndAux
    rw [if_neg (by simp [isEnding]), if_pos rfl]

/-- The whitespace run is an all-whitespace prefix. -/
theorem wsRun_take_ws (r : List Char) : ∀ x ∈ r.take (wsRun r), isWs x = true := by
  induction r with
  | nil => simp
  | cons c r' ih =>
    unfold wsRun
    split
    · rename_i hc
      intro x hx
      rw [List.take_succ_cons] at hx
      rcases List.mem_cons.mp hx with rfl | hx
      · exact hc
      · exact ih x hx
    · simp

/-- Appending one character to a boundary-free scan either stays
boundary-free or matches exactly at the very end. -/
theorem boundEndAux_append_one (c : Char) : ∀ (t : List Char) (p : Char),
    boundEndAux p t = none →
    boundEndAux p (t ++ [c]) = none ∨
      boundEndAux p (t ++ [c]) = some (t.length + 1) := by
  intro t
  induction t with
  | nil =>
    intro p h
    have hp : p ≠ '\n' := by
      intro hp
      rw [hp] at h
      simp [boundEndAux] at h
    show boundEndAux p [c] = none ∨ boundEndAux p [c] = some 1
    by_cases hc : (isEnding p && isWs c) = true
    · right
      unfold boundEndAux
      rw [if_pos hc]
      have hcw : isWs c = true := by
        rw [Bool.and_eq_true] at hc
        exact hc.2
      simp [wsRun, hcw]
    · unfold boundEndAux
      rw [if_neg hc, if_neg hp]
      by_cases hcn : c = '\n'
      · right
        simp [boundEndAux, hcn]
      · left
        simp [boundEndAux, hcn]
  | cons a t ih =>
    intro p h
    have h1 : ¬(isEnding p && isWs a) = true := by
      intro hc
      unfold boundEndAux at h
      rw [if_pos hc] at h
      cases h
    have h2 : p ≠ '\n' := by
      intro hp
      unfold boundEndAux at h
      rw [if_neg h1, if_pos hp] at h
      cases h
    have h3 : boundEndAux a t = none := by
      unfold boundEndAux at h
      rw [if_neg h1, if_neg h2] at h
      exact Option.map_eq_none'.mp h
    show boundEndAux p (a :: (t ++ [c])) = none ∨
      boundEndAux p (a :: (t ++ [c])) = some ((a :: t).length + 1)
    unfold boundEndAux
    rw [if_neg h1, if_neg h2]
    rcases ih a h3 with h4 | h4
    · left
      rw [h4]
      rfl
    · right
      rw [h4]
      simp only [Option.map_some', List.length_cons]

/-- When the appended character created a match at the very end, further
text extends that match only by its whitespace prefix. -/
theorem boundEndAux_extend (c : Char) (r : List Char) : ∀ (t : List Char) (p : Char),
    boundEndAux p t = none →
    boundEndAux p (t ++ [c]) = some (t.length + 1) →
    ∃ j, j ≤ r.length ∧ (∀ x ∈ r.take j, isWs x = true) ∧
      boundEndAux p (t ++ c :: r) = some (t.length + 1 + j) := by
  intro t
  induction t with
  | nil =>
    intro p h0 h1
    have hp : p ≠ '\n' := by
      intro hp
      rw [hp] at h0
      simp [boundEndAux] at h0
    by_cases hc : (isEnding p && isWs c) = true
    · have hcw : isWs c = true := by
        rw [Bool.and_eq_true] at hc
        exact hc.2
      refine ⟨wsRun r, wsRun_le r, wsRun_take_ws r, ?_⟩
      show boundEndAux p (c :: r) = some (0 + 1 + wsRun r)
      unfold boundEndAux
      rw [if_pos hc]
      have hrun : wsRun (c :: r) = wsRun r + 1 := by
        simp [wsRun, hcw]
      rw [hrun]
      exact congrArg some (by omega)
    · have hcn : c = '\n' := by
        show c = '\n'
        have h1' : boundEndAux p [c] = some 1 := h1
        unfold boundEndAux at h1'
        rw [if_neg hc, if_neg hp] at h1'
        rcases Option.map_eq_some'.mp h1' with ⟨k, hk, hke⟩
        by_cases hcn : c = '\n'
        · exact hcn
        · rw [show boundEndAux c [] = none from by simp [boundEndAux, hcn]] at hk
          cases hk
      subst hcn
      refine ⟨0, Nat.zero_le _, by simp, ?_⟩
      show boundEndAux p ('\n' :: r) = some (0 + 1 + 0)
      unfold boundEndAux
      rw [if_neg hc, if_neg hp, boundEndAux_newline]
      rfl
  | cons a t ih =>
    intro p h0 h1
    have hA : ¬(isEnding p && isWs a) = true := by
      intro hc
      unfold boundEndAux at h0
      rw [if_pos hc] at h0
      cases h0
    have hB : p ≠ '\n' := by
      intro hp
      unfold boundEndAux at h0
      rw [if_neg hA, if_pos hp] at h0
      cases h0
    have h3 : boundEndAux a t = none := by
      unfold boundEndAux at h0
      rw [if_neg hA, if_neg hB] at h0
      exact Option.map_eq_none'.mp h0
    have h1' : boundEndAux a (t ++ [c]) = some (t.length + 1) := by
      have h1'' : boundEndAux p (a :: (t ++ [c])) = some ((a :: t).length + 1) := h1
      unfold boundEndAux at h1''
      rw [if_neg hA, if_neg hB] at h1''
      rcases Option.map_eq_some'.mp h1'' with ⟨k, hk, hke⟩
      simp only [List.length_cons] at hke
      have : k = t.length + 1 := by omega
      rw [← this]
      exact hk
    obtain ⟨j, hj1, hj2, hj3⟩ := ih a h3 h1'
    refine ⟨j, hj1, hj2, ?_⟩
    show boundEndAux p (a :: (t ++ c :: r)) = some ((a :: t).length + 1 + j)
    unfold boundEndAux
    rw [if_neg hA, if_neg hB, hj3]
    simp only [Option.map_some', List.length_cons]
    exact congrArg some (by omega)

/-- `boundEnd` version of `boundEndAux_append_one`. -/
theorem boundEnd_append_one (c : Char) (b : List Char) (h : boundEnd b = none) :
    boundEnd (b ++ [c]) = none ∨ boundEnd (b ++ [c]) = some (b.length + 1) := by
  cases b with
  | nil =>
    by_cases hc : c = '\n'
    · right
      simp [boundEnd, boundEndAux, hc]
    · left
      simp [boundEnd, boundEndAux, hc]
  | cons a t =>
    have ha : boundEndAux a t = none := Option.map_eq_none'.mp h
    rcases boundEndAux_append_one c t a ha with h4 | h4
    · left
      show (boundEndAux a (t ++ [c])).map (· + 1) = none
      rw [h4]
      rfl
    · right
      show (boundEndAux a (t ++ [c])).map (· + 1) = some ((a :: t).length + 1)
      rw [h4]
      simp only [Option.map_some', List.length_cons]

/-- `boundEnd` version of `boundEndAux_extend`. -/
theorem boundEnd_extend {b : List Char} {c : Char} (r : List Char)
    (h0 : boundEnd b = none) (h1 : boundEnd (b ++ [c]) = some (b.length + 1)) :
    ∃ j, j ≤ r.length ∧ (∀ x ∈ r.take j, isWs x = true) ∧
      boundEnd (b ++ c :: r) = some (b.length + 1 + j) := by
  cases b with
  | nil =>
    have hcn : c = '\n' := by
      have h1' : (boundEndAux c []).map (· + 1) = some 1 := h1
      rcases Option.map_eq_some'.mp h1' with ⟨k, hk, hke⟩
      by_cases hcn : c = '\n'
      · exact hcn
      · rw [show boundEndAux c [] = none from by simp [boundEndAux, hcn]] at hk
        cases hk
    subst hcn
    refine ⟨0, Nat.zero_le _, by simp, ?_⟩
    show (boundEndAux '\n' r).map (· + 1) = some (0 + 1 + 0)
    rw [boundEndAux_newline]
    rfl
  | cons a t =>
    have ha : boundEndAux a t = none := Option.map_eq_none'.mp h0
    have ha1 : boundEndAux a (t ++ [c]) = some (t.length + 1) := by
      have h1' : (boundEndAux a (t ++ [c])).map (· + 1) = some ((a :: t).length + 1) := h1
      rcases Option.map_eq_some'.mp h1' with ⟨k, hk, hke⟩
      simp only [List.length_cons] at hke
      have : k = t.length + 1 := by omega
      rw [← this]
      exact hk
    obtain ⟨j, hj1, hj2, hj3⟩ := boundEndAux_extend c r t a ha ha1
    refine ⟨j, hj1, hj2, ?_⟩
    show (boundEndAux a (t ++ c :: r)).map (· + 1) = some ((a :: t).length + 1 + j)
    rw [hj3]
    simp only [Option.map_some', List.length_cons]
    exact congrArg some (by omega)

/-- A full-width match makes the whole buffer one cut. -/
theorem extract_full {s : List Char} (h : boundEnd s = some s.length) :
    extract s = ([s], []) := by
  rw [extract_of_some h, List.take_length, List.drop_length]
  rfl

/-- Emission depends only on the trimmed cut. -/
theorem emitCut_congr {x y : List Char} (h : trim x = trim y) :
    emitCut x = emitCut y := by
  unfold emitCut
  rw [h]

/-- One step of the emission filter. -/
theorem emits_cons (x : List Char) (l : List (List Char)) :
    emits (x :: l) = (emitCut x).toList ++ emits l := by
  unfold emits
  rw [List.filterMap_cons]
  cases emitCut x <;> simp

end Segmenter

namespace Segmenter

/-! ## C1: per-character feeding of delimiter-free text -/

/-- The per-character sentence machine: append one character to the
buffer, run the extraction loop, repeat.  This is what a delimiter-free
per-character run of the segmenter does. -/
def stepChars : List Char → List Char → List Event × List Char
  | b, [] => ([], b)
  | b, c :: cs =>
    let p := extract (b ++ [c])
    let q := stepChars p.2 cs
    (emits p.1 ++ q.1, q.2)

/-- Unfolding equation for `stepChars`. -/
theorem stepChars_cons (b : List Char) (c : Char) (cs : List Char) :
    stepChars b (c :: cs) =
      (emits (extract (b ++ [c])).1 ++ (stepChars (extract (b ++ [c])).2 cs).1,
        (stepChars (extract (b ++ [c])).2 cs).2) := rfl

/-- Feeding a concatenation is feeding the parts in sequence. -/
theorem stepChars_append (u : List Char) : ∀ (b v : List Char),
    stepChars b (u ++ v) =
      ((stepChars b u).1 ++ (stepChars (stepChars b u).2 v).1,
        (stepChars (stepChars b u).2 v).2) := by
  induction u with
  | nil =>
    intro b v
    simp [stepChars]
  | cons c u ih =>
    intro b v
    rw [List.cons_append, stepChars_cons, stepChars_cons, ih]
    simp [List.append_assoc]

/-- Feeding whitespace characters into a newline-free whitespace buffer
emits nothing and leaves a newline-free whitespace buffer. -/
theorem stepChars_ws (u : List Char) : ∀ b : List Char,
    (∀ c ∈ b, isWs c = true ∧ c ≠ '\n') → (∀ c ∈ u, isWs c = true) →
    (stepChars b u).1 = [] ∧
      ∀ c ∈ (stepChars b u).2, isWs c = true ∧ c ≠ '\n' := by
  induction u with
  | nil =>
    intro b hb _
    exact ⟨rfl, hb⟩
  | cons c u ih =>
    intro b hb hu
    have hcw : isWs c = true := hu c (List.mem_cons_self c u)
    rw [stepChars_cons]
    by_cases hcn : c = '\n'
    · subst hcn
      have hb2 : boundEnd (b ++ ['\n']) = some (b ++ ['\n']).length := by
        rw [boundEnd_ws_prepend ['\n'] hb]
        have h1 : boundEnd ['\n'] = some 1 := rfl
        rw [h1]
        simp only [Option.map_some', List.length_append, List.length_cons,
          List.length_nil]
        exact congrArg some (by omega)
      rw [extract_full hb2]
      have hall : ∀ x ∈ b ++ ['\n'], isWs x = true := by
        intro x hx
        rcases List.mem_append.mp hx with hx | hx
        · exact (hb x hx).1
        · simp only [List.mem_singleton] at hx
          subst hx
          rfl
      have htr : trim (b ++ ['\n']) = [] := trim_eq_nil_iff.mpr hall
      have hemit : emits [b ++ ['\n']] = [] := by
        rw [emits_cons]
        simp [emitCut, htr, emits]
      obtain ⟨ih1, ih2⟩ := ih [] (by simp) (fun d hd => hu d (List.mem_cons_of_mem _ hd))
      exact ⟨by simp [hemit, ih1], by simpa using ih2⟩
    · have hbc : ∀ x ∈ b ++ [c], isWs x = true ∧ x ≠ '\n' := by
        intro x hx
        rcases List.mem_append.mp hx with hx | hx
        · exact hb x hx
        · simp only [List.mem_singleton] at hx
          subst hx
          exact ⟨hcw, hcn⟩
      have hb2 : boundEnd (b ++ [c]) = none := boundEnd_all_ws hbc
      rw [extract_of_none hb2]
      obtain ⟨ih1, ih2⟩ := ih (b ++ [c]) hbc (fun d hd => hu d (List.mem_cons_of_mem _ hd))
      exact ⟨by simp [emits, ih1], ih2⟩

/-- The streaming lemma: on a boundary-free buffer prefixed by residual
newline-free whitespace, feeding the text one character at a time emits
exactly what the batch extraction loop emits, and the final buffers agree
up to a residual newline-free whitespace prefix. -/
theorem stepChars_batch : ∀ (n : Nat) (cs : List Char), cs.length ≤ n →
    ∀ (b w : List Char),
    (∀ c ∈ w, isWs c = true ∧ c ≠ '\n') →
    boundEnd b = none →
    (stepChars (w ++ b) cs).1 = emits (extract (b ++ cs)).1 ∧
    ∃ w', (∀ c ∈ w', isWs c = true ∧ c ≠ '\n') ∧
      (stepChars (w ++ b) cs).2 = w' ++ (extract (b ++ cs)).2 := by
  intro n
  induction n with
  | zero =>
    intro cs hcs b w hw hb
    have hnil : cs = [] := List.length_eq_zero.mp (Nat.le_zero.mp hcs)
    subst hnil
    rw [List.append_nil, extract_of_none hb]
    exact ⟨rfl, w, hw, rfl⟩
  | succ n ih =>
    intro cs hcs b w hw hb
    cases cs with
    | nil =>
      rw [List.append_nil, extract_of_none hb]
      exact ⟨rfl, w, hw, rfl⟩
    | cons c cs' =>
      have hcs' : cs'.length ≤ n := by
        simp only [List.length_cons] at hcs
        omega
      have hbcs : b ++ c :: cs' = (b ++ [c]) ++ cs' := by simp
      rcases boundEnd_append_one c b hb with hA | hB
      · have hwb : boundEnd ((w ++ b) ++ [c]) = none := by
          rw [List.append_assoc, boundEnd_ws_prepend (b ++ [c]) hw, hA]
          rfl
        rw [stepChars_cons, extract_of_none hwb]
        have key := ih cs' hcs' (b ++ [c]) w hw hA
        rw [List.append_assoc] at key
        constructor
        · rw [hbcs]
          simpa using key.1
        · obtain ⟨w', hw', hbuf⟩ := key.2
          exact ⟨w', hw', by rw [hbcs]; simpa using hbuf⟩
      · have hwb : boundEnd ((w ++ b) ++ [c]) = some ((w ++ b) ++ [c]).length := by
          rw [List.append_assoc, boundEnd_ws_prepend (b ++ [c]) hw, hB]
          simp only [Option.map_some', List.length_append, List.length_cons,
            List.length_nil]
          exact congrArg some (by omega)
        rw [stepChars_cons, extract_full hwb]
        obtain ⟨j, hj1, hj2, hj3⟩ := boundEnd_extend cs' hb hB
        have hcut := extract_of_some hj3
        have hdrop : (b ++ c :: cs').drop (b.length + 1 + j) = cs'.drop j := by
          rw [hbcs, show b.length + 1 + j = (b ++ [c]).length + j from by simp]
          exact List.drop_append j
        have htake : (b ++ c :: cs').take (b.length + 1 + j) = (b ++ [c]) ++ cs'.take j := by
          rw [hbcs, show b.length + 1 + j = (b ++ [c]).length + j from by simp]
          exact List.take_append j
        have htrim : trim ((w ++ b) ++ [c]) = trim ((b ++ c :: cs').take (b.length + 1 + j)) := by
          rw [htake, List.append_assoc w b [c],
            trim_ws_prepend (b ++ [c]) (fun d hd => (hw d hd).1),
            trim_append_ws (b ++ [c]) hj2]
        have hsplit : cs'.take j ++ cs'.drop j = cs' := List.take_append_drop j cs'
        obtain ⟨hws1, hws2⟩ := stepChars_ws (cs'.take j) [] (by simp) hj2
        have hlen : (cs'.drop j).length ≤ n := by
          rw [List.length_drop]
          omega
        have key := ih (cs'.drop j) hlen [] (stepChars [] (cs'.take j)).2 hws2 rfl
        rw [List.append_nil, List.nil_append] at key
        constructor
        · rw [hcut]
          simp only [emits_cons]
          rw [← emitCut_congr htrim]
          have hltail : (stepChars [] cs').1 = emits (extract (cs'.drop j)).1 := by
            rw [← hsplit, stepChars_append, hws1, key.1]
            simp
          simp only [hdrop]
          simp [hltail, emits]
        · obtain ⟨w', hw', hbuf⟩ := key.2
          refine ⟨w', hw', ?_⟩
          rw [hcut]
          simp only [hdrop]
          have hbuf2 : (stepChars [] cs').2 = w' ++ (extract (cs'.drop j)).2 := by
            conv_lhs => rw [← hsplit]
            rw [stepChars_append, hbuf]
          simp [hbuf2]

end Segmenter

namespace Segmenter

/-- Unfolding equation for `runChunks`. -/
theorem runChunks_cons (ms me : List Char) (st : SegState) (c : List Char)
    (cs : List (List Char)) :
    runChunks ms me st (c :: cs) =
      ((runChunks ms me (processChunk ms me st c).1 cs).1,
        (processChunk ms me st c).2 ++ (runChunks ms me (processChunk ms me st c).1 cs).2) :=
  rfl

/-- On delimiter-free text the per-character run of the segmenter is the
per-character sentence machine. -/
theorem runChunks_perChar (ms me : List Char) : ∀ (s : List Char) (st : SegState),
    st.inMarker = false → st.inBackticks = false →
    containsSub ms (st.buffer ++ s) = false →
    containsSub me (st.buffer ++ s) = false →
    containsSub backticks (st.buffer ++ s) = false →
    runChunks ms me st (perChar s) =
      (⟨(stepChars st.buffer s).2, st.fullResponse ++ s, false, false⟩,
        (stepChars st.buffer s).1) := by
  intro s
  induction s with
  | nil =>
    intro st hm hb _ _ _
    obtain ⟨sb, sf, sm, sbt⟩ := st
    simp only at hm hb
    subst hm
    subst hb
    simp [runChunks, stepChars, perChar]
  | cons c s' ih =>
    intro st hm hb h1 h2 h3
    have hpre : ∀ sep : List Char, containsSub sep (st.buffer ++ c :: s') = false →
        containsSub sep (st.buffer ++ [c]) = false := by
      intro sep h
      exact containsSub_infix_false h ⟨[], s', by simp⟩
    have hclean := processChunk_clean ms me st [c] hm hb
      (hpre ms h1) (hpre me h2) (hpre backticks h3)
    obtain ⟨pre, hpre2⟩ : (extract (st.buffer ++ [c])).2 <:+ (st.buffer ++ [c]) :=
      ⟨(extract (st.buffer ++ [c])).1.flatten, extract_partition _⟩
    have hinf : ∀ sep : List Char, containsSub sep (st.buffer ++ c :: s') = false →
        containsSub sep ((extract (st.buffer ++ [c])).2 ++ s') = false := by
      intro sep h
      apply containsSub_infix_false h
      refine ⟨pre, [], ?_⟩
      rw [List.append_nil, ← List.append_assoc, hpre2]
      simp
    show runChunks ms me st ([c] :: perChar s') = _
    rw [runChunks_cons, hclean]
    have hrec := ih ⟨(extract (st.buffer ++ [c])).2, st.fullResponse ++ [c], false, false⟩
      rfl rfl (hinf ms h1) (hinf me h2) (hinf backticks h3)
    rw [hrec, stepChars_cons]
    simp [List.append_assoc]

/-- C1 amended: for input text containing no occurrence of either clip
marker and no triple backtick, feeding it one character at a time
produces exactly the same event sequence as feeding it as one single
chunk (here even without a whitespace caveat). -/
theorem c1_perchar_eq_single (ms me : List Char) (s : List Char)
    (h1 : containsSub ms s = false) (h2 : containsSub me s = false)
    (h3 : containsSub backticks s = false) :
    runSegmenter ms me (perChar s) = runSegmenter ms me [s] := by
  have hclean := processChunk_clean ms me initState s rfl rfl
    (by simpa using h1) (by simpa using h2) (by simpa using h3)
  have hsingle : runChunks ms me initState [s] =
      (⟨(extract s).2, s, false, false⟩, emits (extract s).1) := by
    rw [runChunks_cons, hclean]
    simp [runChunks, initState]
  have hpc := runChunks_perChar ms me s initState rfl rfl
    (by simpa using h1) (by simpa using h2) (by simpa using h3)
  obtain ⟨hev, w', hw', hbuf⟩ :=
    stepChars_batch s.length s (Nat.le_refl _) [] [] (by simp) rfl
  simp only [List.nil_append] at hev hbuf
  have htrim : trim ((stepChars [] s).2) = trim ((extract s).2) := by
    rw [hbuf]
    exact trim_ws_prepend _ (fun c hc => (hw' c hc).1)
  simp only [runSegmenter]
  rw [hpc, hsingle]
  show (stepChars initState.buffer s).1 ++
      flushEvents ⟨(stepChars initState.buffer s).2, initState.fullResponse ++ s, false, false⟩ ++
      fullEvent ⟨(stepChars initState.buffer s).2, initState.fullResponse ++ s, false, false⟩ =
    emits (extract s).1 ++ flushEvents ⟨(extract s).2, s, false, false⟩ ++
      fullEvent ⟨(extract s).2, s, false, false⟩
  have hbinit : initState.buffer = ([] : List Char) := rfl
  have hfinit : initState.fullResponse ++ s = s := by simp [initState]
  rw [hbinit, hfinit, hev]
  have hflush : flushEvents ⟨(stepChars [] s).2, s, false, false⟩ =
      flushEvents ⟨(extract s).2, s, false, false⟩ := by
    unfold flushEvents
    simp only [htrim]
  rw [hflush]
  rfl

/-- Witness for C1: per-character and single-chunk runs agree on the
delimiter-free text `"One. Two! Three"`. -/
theorem c1_witness :
    runSegmenter defStart defEnd (perChar "One. Two! Three".toList) =
      runSegmenter defStart defEnd ["One. Two! Three".toList] :=
  c1_perchar_eq_single defStart defEnd "One. Two! Three".toList
    (by decide) (by decide) (by decide)

end Segmenter

namespace Segmenter

/-! ## C6: character conservation on delimiter-free text -/

/-- The characters of the sentence and clipboard payloads, in emission
order (`full_response` excluded). -/
def payloadChars (evs : List Event) : List Char :=
  (evs.filterMap (fun e => match e with
    | .sentence t => some t
    | .clipboard_text t => some t
    | .full_response _ => none)).flatten

/-- `payloadChars` distributes over append. -/
theorem payloadChars_append (l1 l2 : List Event) :
    payloadChars (l1 ++ l2) = payloadChars l1 ++ payloadChars l2 := by
  unfold payloadChars
  rw [List.filterMap_append, List.flatten_append]

/-- A blank text has no non-whitespace characters. -/
theorem nonWs_of_trim_nil {x : List Char} (h : trim x = []) : nonWs x = [] :=
  nonWs_eq_nil (trim_eq_nil_iff.mp h)

/-- The emission filter conserves non-whitespace characters. -/
theorem nonWs_payload_emits (cuts : List (List Char)) :
    nonWs (payloadChars (emits cuts)) = nonWs cuts.flatten := by
  induction cuts with
  | nil => rfl
  | cons x l ih =>
    rw [emits_cons, payloadChars_append, List.flatten_cons, nonWs_append, nonWs_append, ih]
    congr 1
    unfold emitCut
    split
    · rename_i h
      rw [nonWs_of_trim_nil h]
      rfl
    · have hp : payloadChars [Event.sentence (trim x)] = trim x := by
        simp [payloadChars]
      show nonWs (payloadChars [Event.sentence (trim x)]) = nonWs x
      rw [hp, nonWs_trim]

/-- The flush conserves the buffer's non-whitespace characters (in a
clean, flag-free state). -/
theorem nonWs_payload_flush {st : SegState} (hm : st.inMarker = false)
    (hb : st.inBackticks = false) :
    nonWs (payloadChars (flushEvents st)) = nonWs st.buffer := by
  by_cases h : trim st.buffer = []
  · have hf : flushEvents st = [] := by
      unfold flushEvents
      rw [if_neg (by simpa using h)]
    rw [hf, nonWs_of_trim_nil h]
    rfl
  · have hf : flushEvents st = [.sentence (trim st.buffer)] := by
      unfold flushEvents
      rw [if_pos h, if_neg (by simp [hb]), if_pos (by simp [hm])]
    rw [hf]
    have hp : payloadChars [Event.sentence (trim st.buffer)] = trim st.buffer := by
      simp [payloadChars]
    rw [hp, nonWs_trim]

/-- On delimiter-free input, any run keeps the flags clear and conserves
non-whitespace characters between emitted payloads and the buffer. -/
theorem runChunks_clean_nonWs (ms me : List Char) : ∀ (cs : List (List Char)) (st : SegState),
    st.inMarker = false → st.inBackticks = false →
    containsSub ms (st.buffer ++ cs.flatten) = false →
    containsSub me (st.buffer ++ cs.flatten) = false →
    containsSub backticks (st.buffer ++ cs.flatten) = false →
    (runChunks ms me st cs).1.inMarker = false ∧
    (runChunks ms me st cs).1.inBackticks = false ∧
    nonWs (payloadChars (runChunks ms me st cs).2) ++ nonWs (runChunks ms me st cs).1.buffer
      = nonWs st.buffer ++ nonWs cs.flatten := by
  intro cs
  induction cs with
  | nil =>
    intro st hm hb _ _ _
    refine ⟨hm, hb, ?_⟩
    show nonWs (payloadChars []) ++ nonWs st.buffer = nonWs st.buffer ++ nonWs [].flatten
    simp [payloadChars, nonWs]
  | cons c cs' ih =>
    intro st hm hb h1 h2 h3
    have hflatc : st.buffer ++ (c :: cs').flatten = (st.buffer ++ c) ++ cs'.flatten := by
      rw [List.flatten_cons, List.append_assoc]
    have hpre : ∀ sep : List Char,
        containsSub sep (st.buffer ++ (c :: cs').flatten) = false →
        containsSub sep (st.buffer ++ c) = false := by
      intro sep h
      apply containsSub_infix_false h
      exact ⟨[], cs'.flatten, by rw [hflatc]; simp⟩
    have hclean := processChunk_clean ms me st c hm hb
      (hpre ms h1) (hpre me h2) (hpre backticks h3)
    obtain ⟨pre, hpre2⟩ : (extract (st.buffer ++ c)).2 <:+ (st.buffer ++ c) :=
      ⟨(extract (st.buffer ++ c)).1.flatten, extract_partition _⟩
    have hinf : ∀ sep : List Char,
        containsSub sep (st.buffer ++ (c :: cs').flatten) = false →
        containsSub sep ((extract (st.buffer ++ c)).2 ++ cs'.flatten) = false := by
      intro sep h
      apply containsSub_infix_false h
      refine ⟨pre, [], ?_⟩
      rw [List.append_nil, hflatc, ← List.append_assoc, hpre2]
    rw [runChunks_cons, hclean]
    obtain ⟨hm', hb', heq⟩ := ih ⟨(extract (st.buffer ++ c)).2, st.fullResponse ++ c, false, false⟩
      rfl rfl (hinf ms h1) (hinf me h2) (hinf backticks h3)
    refine ⟨hm', hb', ?_⟩
    have hA : nonWs (payloadChars (emits (extract (st.buffer ++ c)).1)) ++
        nonWs ((extract (st.buffer ++ c)).2) = nonWs st.buffer ++ nonWs c := by
      rw [nonWs_payload_emits, ← nonWs_append, extract_partition, nonWs_append]
    rw [payloadChars_append, nonWs_append, List.append_assoc, heq]
    show nonWs (payloadChars (emits (extract (st.buffer ++ c)).1)) ++
        (nonWs ((extract (st.buffer ++ c)).2) ++ nonWs cs'.flatten) =
      nonWs st.buffer ++ nonWs (c :: cs').flatten
    rw [← List.append_assoc, hA, List.append_assoc, ← nonWs_append, List.flatten_cons]

/-- C6 amended: for every chunking of delimiter-free input (no clip
markers, no triple backticks), the non-whitespace characters of the
sentence and clipboard payloads reconstruct exactly the non-whitespace
characters of the input, and every `full_response` payload trims to the
trimmed input. -/
theorem c6_conservation (ms me : List Char) (s : List Char) (chunks : List (List Char))
    (hflat : chunks.flatten = s)
    (h1 : containsSub ms s = false) (h2 : containsSub me s = false)
    (h3 : containsSub backticks s = false) :
    nonWs (payloadChars (runSegmenter ms me chunks)) = nonWs s ∧
    ∀ t, Event.full_response t ∈ runSegmenter ms me chunks → trim t = trim s := by
  subst hflat
  obtain ⟨hm', hb', heq⟩ := runChunks_clean_nonWs ms me chunks initState rfl rfl
    (by simpa using h1) (by simpa using h2) (by simpa using h3)
  constructor
  · simp only [runSegmenter]
    rw [payloadChars_append, payloadChars_append, nonWs_append, nonWs_append]
    have hfullnil : payloadChars (fullEvent (runChunks ms me initState chunks).1) = [] := by
      unfold fullEvent
      split
      · rfl
      · rfl
    rw [hfullnil, nonWs_payload_flush hm' hb']
    show nonWs (payloadChars (runChunks ms me initState chunks).2) ++
        nonWs ((runChunks ms me initState chunks).1.buffer) ++ nonWs [] =
      nonWs chunks.flatten
    rw [heq]
    show nonWs initState.buffer ++ nonWs chunks.flatten ++ nonWs [] = nonWs chunks.flatten
    simp [initState, nonWs]
  · intro t ht
    simp only [runSegmenter] at ht
    rcases List.mem_append.mp ht with hmem | hmem
    · exfalso
      have hmid : midShape (Event.full_response t) := by
        rcases List.mem_append.mp hmem with hmem' | hmem'
        · exact runChunks_shape ms me chunks initState _ hmem'
        · exact flushEvents_shape _ _ hmem'
      rcases hmid with ⟨u, hu, -⟩ | hu | ⟨u, hu⟩ <;> cases hu
    · have hfr : (runChunks ms me initState chunks).1.fullResponse = chunks.flatten := by
        rw [runChunks_fullResponse]
        rfl
      unfold fullEvent at hmem
      split at hmem
      · simp only [List.mem_singleton] at hmem
        injection hmem with hmem
        rw [hmem, hfr, trim_idem]
      · simp at hmem

/-- Witness for C6: on a two-chunk split of `"Hi. Yo"` the payload
characters reconstruct the input's non-whitespace characters. -/
theorem c6_witness :
    nonWs (payloadChars (runSegmenter defStart defEnd ["Hi. ".toList, "Yo".toList])) =
      nonWs "Hi. Yo".toList :=
  (c6_conservation defStart defEnd "Hi. Yo".toList ["Hi. ".toList, "Yo".toList]
    (by decide) (by decide) (by decide) (by decide)).1

end Segmenter
